import Mathlib

/-!
# Verification of libfix32math (fixed-point math library)

A shallow embedding in Lean 4 of the C sources `fix32math.h` and
`src/fix32math.c` of the repository `michael-platzer/libfix32math`,
together with theorems settling the specification claims about it.

Machine integers are modelled as follows:

* `uint32_t` / `uint64_t` values are `Nat`s, with an explicit `% 2^32`
  (resp. `% 2^64`) at every operation where the C computation can wrap.
* `int32_t` / `int64_t` values are `Int`s; the implicit C conversion of a
  wider value to `int32_t` (two's complement truncation) is `toInt32`,
  and reading an `int32_t` pattern from a `uint32_t` is `i32ofBits`.
* The C arithmetic right shift `>>` on signed operands is `sar`
  (sign-extending shift, i.e. flooring division by a power of two).
* The C bitwise `&` on `int64_t` is performed on the two's complement
  bit patterns, obtained by `bits64`.
-/

/-- Two's complement truncation of an integer to a signed 32-bit value
(the C conversion of a wider integer type to `int32_t`). -/
def toInt32 (x : Int) : Int := (x + 2 ^ 31) % 2 ^ 32 - 2 ^ 31

/-- The 64-bit two's complement bit pattern of a signed 64-bit value
(the C reinterpretation of an `int64_t` as bits, used for `&`). -/
def bits64 (x : Int) : Nat := (x % 2 ^ 64).toNat

/-- Signed value of a `uint32_t` bit pattern reinterpreted as `int32_t`
(the C conversion `(int32_t)` of a `uint32_t`). -/
def i32ofBits (x : Nat) : Int := toInt32 (x : Int)

/-- Arithmetic (sign-extending) right shift of a signed value, as used by
the C sources for `>>` on `int32_t`/`int64_t` (flooring division). -/
def sar (v : Int) (n : Nat) : Int := Int.fdiv v (2 ^ n)

/-! ## Scaler (`fix32math.h`, the `FIX32_MATH_SCALE_FUNCTION` template)

Each C instance is
`return (val + ((1LL << (n - 1)) ADD_TO_VAL_BESIDE_HALF)) >> n;`
computed in `int64_t` (the literal `1LL` promotes the sum); the result is
converted back to the declared integer type `DTYPE` on return.  The C
bitwise complement `~x` on two's complement equals `-x - 1`. -/

/-- 32-bit Round-Half-Up scaling (`fix32_scale_rhu_32`). -/
def fix32_scale_rhu_32 (val : Int) (n : Nat) : Int :=
  toInt32 (sar (val + 2 ^ (n - 1)) n)

/-- 32-bit Round-Half-Down scaling (`fix32_scale_rhd_32`). -/
def fix32_scale_rhd_32 (val : Int) (n : Nat) : Int :=
  toInt32 (sar (val + (2 ^ (n - 1) - 1)) n)

/-- 32-bit Round-Half-Away-from-Zero scaling (`fix32_scale_rhaz_32`). -/
def fix32_scale_rhaz_32 (val : Int) (n : Nat) : Int :=
  toInt32 (sar (val + (2 ^ (n - 1) + sar val 31)) n)

/-- 32-bit Round-Half-Towards-Zero scaling (`fix32_scale_rhtz_32`). -/
def fix32_scale_rhtz_32 (val : Int) (n : Nat) : Int :=
  toInt32 (sar (val + (2 ^ (n - 1) + (-(sar val 31) - 1))) n)

/-- 64-bit Round-Half-Up scaling (`fix32_scale_rhu_64`). -/
def fix32_scale_rhu_64 (val : Int) (n : Nat) : Int :=
  sar (val + 2 ^ (n - 1)) n

/-- 64-bit Round-Half-Down scaling (`fix32_scale_rhd_64`). -/
def fix32_scale_rhd_64 (val : Int) (n : Nat) : Int :=
  sar (val + (2 ^ (n - 1) - 1)) n

/-- 64-bit Round-Half-Away-from-Zero scaling (`fix32_scale_rhaz_64`). -/
def fix32_scale_rhaz_64 (val : Int) (n : Nat) : Int :=
  sar (val + (2 ^ (n - 1) + sar val 63)) n

/-- 64-bit Round-Half-Towards-Zero scaling (`fix32_scale_rhtz_64`). -/
def fix32_scale_rhtz_64 (val : Int) (n : Nat) : Int :=
  sar (val + (2 ^ (n - 1) + (-(sar val 63) - 1))) n

/-! ## Multiplier (`fix32math.h`, `fix32_mul`)

`int64_t prod = fix32_scale_rhaz_64((int64_t)a * b, n);` followed by the
optional overflow test
`(prod & (-1LL << 31)) != ((prod >> 32) & (-1LL << 31))`
and `return prod;` (implicit `int64_t` → `int32_t` truncation). -/

/-- Bit pattern of the C mask `(-1LL << 31)`: bits 31..63 set. -/
def fix32_mul_mask : Nat := 2 ^ 64 - 2 ^ 31

/-- The rescaled 64-bit intermediate `prod` of `fix32_mul`. -/
def fix32_mul_prod (a b : Int) (n : Nat) : Int :=
  fix32_scale_rhaz_64 (a * b) n

/-- `fix32_mul`: multiply, rescale with RHAZ rounding, truncate to 32 bits. -/
def fix32_mul (a b : Int) (n : Nat) : Int :=
  toInt32 (fix32_mul_prod a b n)

/-- The overflow condition tested by `fix32_mul` when
`FIX32_MATH_MUL_OVERFLOW_ACTION` is defined:
`(prod & (-1LL << 31)) != ((prod >> 32) & (-1LL << 31))`. -/
def fix32_mul_overflow (a b : Int) (n : Nat) : Bool :=
  let prod := fix32_mul_prod a b n
  (bits64 prod &&& fix32_mul_mask) ≠ (bits64 (sar prod 32) &&& fix32_mul_mask)

/-! ## InverseSqrtApproximator (`src/fix32math.c`, `fix32_invsqrt`)

`uint32_t fix32_invsqrt(uint32_t val, int *scale)`.  The in/out pointer
parameter is modelled by returning the pair (result, final `*scale`).
All `uint32_t` locals are `Nat`s with `% 2^32` at the operations that can
wrap; the intermediate 64-bit multiplications `(uint64_t)x * y + (1uLL<<m)`
never exceed `2^64` (`x, y < 2^32` gives `x * y ≤ 2^64 - 2^33 + 1`),
so no `% 2^64` is required for them. -/

/-- Number of Newton-Raphson refinement iterations
(`FIX32_INVSQRT_NEWTON_ITERS`). -/
def FIX32_INVSQRT_NEWTON_ITERS : Nat := 2

/-- `11 / 432` with scaling `2^36` (`frac_11_432`). -/
def frac_11_432 : Nat := 0x684BDA13

/-- `19 / 72` with scaling `2^33` (`frac_19_72`). -/
def frac_19_72 : Nat := 0x871C71C7

/-- `137 / 144` with scaling `2^30` (`frac_137_144`). -/
def frac_137_144 : Nat := 0x3CE38E39

/-- `185 / 108` with scaling `2^27` (`frac_185_108`). -/
def frac_185_108 : Nat := 0x0DB425ED

/-- `1.5` with a scaling factor of `2^25` (the local `_1p5 = 3u<<24`). -/
def fix32_1p5 : Nat := 3 <<< 24

/-- `uint32_t` subtraction (two's complement wraparound for operands
below `2^32`), for the C subtractions of unsigned locals. -/
def usub32 (x y : Nat) : Nat := (x + 2 ^ 32 - y) % 2 ^ 32

/-- One step of the portable binary-reduction bit scan of `fix32_invsqrt`:
`if (val_copy & MASK) { val_copy &= MASK; msb_even += INC; }` acting on the
pair `(val_copy, msb_even)`. -/
def msbStep (vm : Nat × Nat) (mask inc : Nat) : Nat × Nat :=
  if vm.1 &&& mask ≠ 0 then (vm.1 &&& mask, vm.2 + inc) else vm

/-- The portable (non-`__riscv`) computation of `msb_even` in
`fix32_invsqrt`: four mask-and-accumulate steps (the last step does not
update `val_copy`, whose value is dead afterwards). -/
def msbEven (val : Nat) : Nat :=
  let vm := msbStep (msbStep (msbStep (val, 0) 0xFFFF0000 16) 0xFF00FF00 8)
      0xF0F0F0F0 4
  if vm.1 &&& 0xCCCCCCCC ≠ 0 then vm.2 + 2 else vm.2

/-- `a_squ = ((uint64_t)a * a + (1uLL<<32)) >> 33` (scale `2^27`). -/
def fix32_a_squ (a : Nat) : Nat := (a * a + (1 <<< 32)) >>> 33

/-- `a_cub = ((uint64_t)a * a_squ + (1uLL<<32)) >> 33` (scale `2^24`). -/
def fix32_a_cub (a : Nat) : Nat := (a * fix32_a_squ a + (1 <<< 32)) >>> 33

/-- The term `(uint32_t)(((uint64_t)frac_19_72 * a_squ + (1uLL<<32)) >> 33)`
of the cubic interpolation. -/
def fix32_t19 (a : Nat) : Nat := (frac_19_72 * fix32_a_squ a + (1 <<< 32)) >>> 33

/-- The term `(uint32_t)(((uint64_t)frac_137_144 * a + (1uLL<<32)) >> 33)`
of the cubic interpolation. -/
def fix32_t137 (a : Nat) : Nat := (frac_137_144 * a + (1 <<< 32)) >>> 33

/-- The term `(uint32_t)(((uint64_t)frac_11_432 * a_cub + (1uLL<<32)) >> 33)`
of the cubic interpolation. -/
def fix32_t11 (a : Nat) : Nat := (frac_11_432 * fix32_a_cub a + (1 <<< 32)) >>> 33

/-- The cubic-interpolation estimate of `1/sqrt(a)`: the additions are done
before the subtractions, and the final `res <<= 3` raises the scale to
`2^30`.  (Each `>> 33` term is below `2^31`, so the sum
`frac_185_108 + fix32_t19 a` cannot wrap; the subtractions and the left
shift are performed as `uint32_t` operations.) -/
def invsqrt_poly (a : Nat) : Nat :=
  ((usub32 (usub32 (frac_185_108 + fix32_t19 a) (fix32_t137 a)) (fix32_t11 a))
    <<< 3) % 2 ^ 32

/-- `res_squ = ((uint64_t)res * res + (1uLL<<32)) >> 33` of the Newton
iteration (scale `2^28`). -/
def res_squN (res : Nat) : Nat := (res * res + (1 <<< 32)) >>> 33

/-- `half_a_res_squ = ((uint64_t)a * res_squ + (1uLL<<32)) >> 33` of the
Newton iteration (scale `2^25`). -/
def half_a_res_squN (a res : Nat) : Nat :=
  (a * res_squN res + (1 <<< 32)) >>> 33

/-- One Newton-Raphson iteration of `fix32_invsqrt`'s refinement loop:
the update `res = ((uint64_t)res * (_1p5 - half_a_res_squ) + (1uLL<<24))
>> 25` (the assignment back to the `uint32_t` local truncates). -/
def newtonStep (a res : Nat) : Nat :=
  ((res * usub32 fix32_1p5 (half_a_res_squN a res) + (1 <<< 24)) >>> 25) % 2 ^ 32

/-- The mantissa-space part of `fix32_invsqrt`: cubic interpolation followed
by the Newton-Raphson refinement loop
`for (i = 0; i < FIX32_INVSQRT_NEWTON_ITERS; i++)`, unrolled for the
configured `FIX32_INVSQRT_NEWTON_ITERS = 2` iterations, for a mantissa `a`
at scale `2^30`. -/
def invsqrt_mant (a : Nat) : Nat :=
  newtonStep a (newtonStep a (invsqrt_poly a))

/-- The odd-scale parity correction at the top of `fix32_invsqrt`:
`odd = *scale & 1; val = (val + odd) >> odd; *scale += odd;`
(`val` is `uint32_t`, so `val + odd` wraps at `2^32`). -/
def invsqrt_parity (val : Nat) (scale : Int) : Nat × Int :=
  let odd := (scale % 2).toNat
  (((val + odd) % 2 ^ 32) >>> odd, scale + odd)

/-- The body of `fix32_invsqrt` after the parity correction: extract
`msb_even` and the mantissa `a = val << (30 - msb_even)`, halve the
exponent `n = (msb_even - *scale) >> 1` (arithmetic shift), run the
interpolation and Newton iterations, and return the result together with
the output scale `30 + n`. -/
def invsqrt_core (val : Nat) (scale : Int) : Nat × Int :=
  let msb_even := msbEven val
  let a := (val <<< (30 - msb_even)) % 2 ^ 32
  let n := sar ((msb_even : Int) - scale) 1
  (invsqrt_mant a, 30 + n)

/-- `fix32_invsqrt` (`src/fix32math.c`): approximate the inverse square
root of a `uint32_t` fixed point value; returns the pair of the `uint32_t`
result and the updated scale. -/
def fix32_invsqrt (val : Nat) (scale : Int) : Nat × Int :=
  let (val1, scale1) := invsqrt_parity val scale
  invsqrt_core val1 scale1

/-! ## Atan2Approximator (`src/fix32math.c`, `fix32_atan2`)

Note the parameter order of the *definition* in `src/fix32math.c`:
`int32_t fix32_atan2(int32_t y, int32_t x, int scale)` — the first
positional argument is bound to `y` (the header *declares*
`fix32_atan2(int32_t x, int32_t y, int scale)`).  The embedding follows
the definition, which is what the compiled function executes. -/

/-- `pi/2` with a scaling factor of `2^28` (the local `pi_half`). -/
def fix32_pi_half : Int := 0x1921FB54

/-- `pi` with a scaling factor of `2^28` (the local `pi`). -/
def fix32_pi : Int := 0x3243F6A9

/-- `0.28125` with a scaling factor of `2^32` (the local `_28125`). -/
def fix32_28125 : Int := 0x48000000

/-- The octant computation of `fix32_atan2`:
`octant = (abs_x > abs_y) ? 0 : 1`, mirrored by `3 - octant` if `x < 0`
and by `7 - octant` if `y < 0`. -/
def atan2_octant (y x : Int) : Int :=
  let abs_x := if 0 ≤ x then x else -x
  let abs_y := if 0 ≤ y then y else -y
  let oct0 : Int := if abs_y < abs_x then 0 else 1
  let oct1 := if x < 0 then 3 - oct0 else oct0
  if y < 0 then 7 - oct1 else oct1

/-- The per-octant denominator of `fix32_atan2`:
`sq_x + fix32_mul(sq_y, _28125, 32)` for octants 7, 0, 3, 4 and
`sq_y + fix32_mul(sq_x, _28125, 32)` otherwise.  (The `int` addition
cannot overflow: both summands lie in `[0, 2^30]`.) -/
def atan2_denum (y x : Int) : Int :=
  let sq_x := fix32_mul x x 32
  let sq_y := fix32_mul y y 32
  let octant := atan2_octant y x
  if octant = 7 ∨ octant = 0 ∨ octant = 3 ∨ octant = 4 then
    sq_x + fix32_mul sq_y fix32_28125 32
  else
    sq_y + fix32_mul sq_x fix32_28125 32

/-- The signed product term of `fix32_atan2`:
`fix32_mul(x_y, inv, shift)` where `inv` is the squared inverse square
root of the per-octant denominator and
`shift = sq_scale + (2 * den_scale - 32) - 28` lands the result at scale
`2^28`.  (`denum` is converted to `uint32_t` for `fix32_invsqrt` and the
`uint32_t` result is assigned to the `int32_t` local `inv_sqrt`.) -/
def atan2_product (y x scale : Int) : Int :=
  let x_y := fix32_mul x y 32
  let sq_scale := scale + scale - 32
  let denum := atan2_denum y x
  let r := fix32_invsqrt ((denum % 2 ^ 32).toNat) sq_scale
  let inv_sqrt : Int := i32ofBits r.1
  let den_scale : Int := r.2
  let inv := fix32_mul inv_sqrt inv_sqrt 32
  let shift := sq_scale + (2 * den_scale - 32) - 28
  fix32_mul x_y inv shift.toNat

/-- `fix32_atan2` (`src/fix32math.c`): rough approximation of the arcus
tangens of `y/x`, result at scale `2^28`.  First parameter `y`, second
`x`, as in the function definition in the C source. -/
def fix32_atan2 (y x : Int) (scale : Int) : Int :=
  let octant := atan2_octant y x
  let product := atan2_product y x scale
  if octant = 7 ∨ octant = 0 then product
  else if octant = 1 ∨ octant = 2 then fix32_pi_half - product
  else if octant = 3 then fix32_pi + product
  else if octant = 4 then -fix32_pi + product
  else if octant = 5 ∨ octant = 6 then -fix32_pi_half - product
  else 0

/-- The octant selection exactly as the claim words it (for comparison
with `atan2_octant`): `o = (|x| > |y| ? 0 : 1)`, then `o := 3 - o` if
`x < 0`, then `o := 7 - o` if `y < 0`. -/
def atan2_octant_claim (y x : Int) : Int :=
  let o0 : Int := if |x| > |y| then 0 else 1
  let o1 : Int := if x < 0 then 3 - o0 else o0
  if y < 0 then 7 - o1 else o1

/-- The per-octant recombination table exactly as the claim words it:
the product term for octants 7 and 0; `0x1921FB54` minus the product for
1 and 2; `0x3243F6A9` plus the product for 3; `-0x3243F6A9` plus the
product for 4; `-0x1921FB54` minus the product for 5 and 6. -/
def atan2_claim (y x scale : Int) : Int :=
  let o := atan2_octant_claim y x
  let p := atan2_product y x scale
  if o = 7 ∨ o = 0 then p
  else if o = 1 ∨ o = 2 then 0x1921FB54 - p
  else if o = 3 then 0x3243F6A9 + p
  else if o = 4 then -0x3243F6A9 + p
  else -0x1921FB54 - p

/-! ## Certified error-sweep infrastructure for `fix32_invsqrt`

The following definitions are *verification infrastructure*, not part of
the embedding: executable bounding functions whose soundness with respect
to `invsqrt_poly` / `newtonStep` is proved below, used to certify the
relative-error bound of `fix32_invsqrt` over every mantissa
`a ∈ [2^30, 2^32)`.

They track the Newton invariant `q = a * res^2` (the squared ratio of the
iterate to the true inverse square root, scaled by `2^90`): the Newton
update contracts `q` towards `2^90`, so interval bounds on `q` stay tight
through the two iterations. -/

/-- Upper bound for the computed `half_a_res_squ` in terms of
`q = a * res^2`. -/
def hupQ (q : Nat) : Nat := (q + 2 ^ 64 + 2 ^ 65) / 2 ^ 66

/-- Lower bound for the computed `half_a_res_squ` in terms of
`q = a * res^2`. -/
def hdnQ (q : Nat) : Nat := (q - (2 ^ 64 + 2 ^ 66)) / 2 ^ 66

/-- Certified lower bound for `q' = a * (newtonStep a res)^2` as a
function of `q = a * res^2` alone. -/
def qstepLo (q : Nat) : Nat :=
  q * (fix32_1p5 - hupQ q) ^ 2 / 2 ^ 50 - 2 ^ 64

/-- Universal upper bound for `q` after one Newton step (the Newton map
never exceeds its fixed point `2^90` by more than rounding noise). -/
def CAPQ : Nat := 2 ^ 90 + 2 ^ 68

/-- Slack of the chord (quasi-concavity) bound for `qstepLo` over an
interval. -/
def EQchord : Nat := 2 ^ 69

/-- Certified lower bound for `q` after the two Newton iterations, over a
box `[qlo, qhi]` of initial values `q0 = a * invsqrt_poly a ^ 2`. -/
def qLower2 (qlo qhi : Nat) : Nat :=
  min (qstepLo (min (qstepLo qlo) (qstepLo qhi) - EQchord)) (qstepLo CAPQ)
    - EQchord

/-- Certified check of the relative-error bound of `invsqrt_mant` on the
mantissa box `[alo, ahi]`: corner bounds for the cubic interpolation
(whose terms are monotone in `a`), the `q`-box they induce, and the final
threshold comparison after the two certified Newton lower-bound steps. -/
def checkBox (alo ahi : Nat) : Bool :=
  let pLo := frac_185_108 + fix32_t19 alo
  let pHi := frac_185_108 + fix32_t19 ahi
  let s137lo := fix32_t137 alo
  let s137hi := fix32_t137 ahi
  let s11lo := fix32_t11 alo
  let s11hi := fix32_t11 ahi
  decide (s137hi + s11hi ≤ pLo)
  && decide (pHi - s137lo - s11lo < 2 ^ 29)
  && (let rlo := (pLo - s137hi - s11hi) <<< 3
      let rhi := (pHi - s137lo - s11lo) <<< 3
      let qlo := alo * rlo ^ 2
      let qhi := ahi * rhi ^ 2
      decide (qhi ≤ 3 * 2 ^ 89)
      && decide ((10 ^ 4 - 1) ^ 2 * 2 ^ 90 < qLower2 qlo qhi * 10 ^ 8))

/-- Adaptive bisection sweep: certify the whole range `[alo, ahi]` by
checking it as a single box or splitting it in half, down to the given
fuel. -/
def checkRange : Nat → Nat → Nat → Bool
  | alo, ahi, 0 => checkBox alo ahi
  | alo, ahi, fuel + 1 =>
    checkBox alo ahi
    || (checkRange alo ((alo + ahi) / 2) fuel
        && checkRange ((alo + ahi) / 2 + 1) ahi fuel)

/-! ## Basic facts about the embedding primitives -/

theorem sar_eq_ediv (v : Int) (n : Nat) : sar v n = v / 2 ^ n := by
  unfold sar
  exact Int.fdiv_eq_ediv v (by positivity)

theorem toInt32_eq {x : Int} (h1 : -2 ^ 31 ≤ x) (h2 : x < 2 ^ 31) :
    toInt32 x = x := by
  unfold toInt32
  omega

theorem sar31_sign {v : Int} (h1 : -2 ^ 31 ≤ v) (h2 : v < 2 ^ 31) :
    sar v 31 = if 0 ≤ v then 0 else -1 := by
  rw [sar_eq_ediv]
  split <;> omega

theorem sar63_sign {v : Int} (h1 : -2 ^ 63 ≤ v) (h2 : v < 2 ^ 63) :
    sar v 63 = if 0 ≤ v then 0 else -1 := by
  rw [sar_eq_ediv]
  split <;> omega

theorem one_le_two_pow_int (k : Nat) : (1 : Int) ≤ 2 ^ k := by
  have := pow_pos (show (0 : Int) < 2 by norm_num) k
  omega

theorem sar_lower {x c : Int} (n : Nat) (h1 : -c ≤ x) (hc : 0 ≤ c) :
    -c ≤ sar x n := by
  rw [sar_eq_ediv, Int.le_ediv_iff_mul_le (show (0 : Int) < 2 ^ n by positivity)]
  have h2 : (1 : Int) ≤ 2 ^ n := one_le_two_pow_int n
  nlinarith

theorem sar_upper {x c : Int} {n : Nat} (hn : 1 ≤ n) (hc : 0 < c)
    (h2 : x < c + 2 ^ (n - 1)) : sar x n < c := by
  rw [sar_eq_ediv, Int.ediv_lt_iff_lt_mul (show (0 : Int) < 2 ^ n by positivity)]
  have he : (2 : Int) ^ n = 2 * 2 ^ (n - 1) := by
    rw [← pow_succ']
    congr 1
    omega
  have h3 : (1 : Int) ≤ 2 ^ (n - 1) := one_le_two_pow_int (n - 1)
  nlinarith

theorem toInt32_sar_fit {x : Int} {n : Nat} (hn : 1 ≤ n)
    (h1 : -2 ^ 31 ≤ x) (h2 : x < 2 ^ 31 + 2 ^ (n - 1)) :
    toInt32 (sar x n) = sar x n :=
  toInt32_eq (sar_lower n h1 (by norm_num)) (sar_upper hn (by norm_num) h2)

/-- Difference of flooring divisions of consecutive integers detects
divisibility. -/
theorem ediv_sub_ediv_pred (x c : Int) (hc : 0 < c) :
    x / c - (x - 1) / c = if x % c = 0 then 1 else 0 := by
  have hd := Int.ediv_add_emod x c
  have hr0 : 0 ≤ x % c := Int.emod_nonneg x (by omega)
  have hrc : x % c < c := Int.emod_lt_of_pos x hc
  rcases eq_or_ne (x % c) 0 with hr | hr
  · rw [if_pos hr]
    have hx1 : x - 1 = (c - 1) + (x / c - 1) * c := by linarith [hd, hr]
    have e1 : (c - 1) / c = 0 := Int.ediv_eq_zero_of_lt (by omega) (by omega)
    rw [hx1, Int.add_mul_ediv_right _ _ (show c ≠ 0 by omega), e1]
    ring
  · rw [if_neg hr]
    have hx1 : x - 1 = (x % c - 1) + (x / c) * c := by linarith [hd]
    have e1 : (x % c - 1) / c = 0 := Int.ediv_eq_zero_of_lt (by omega) (by omega)
    rw [hx1, Int.add_mul_ediv_right _ _ (show c ≠ 0 by omega), e1]
    ring

/-- The RHU and RHD biases differ by one, so the scaled results differ by
the divisibility indicator of `v + 2^(n-1)`; rephrased on `v % 2^n`. -/
theorem sar_rhu_sub_rhd (v : Int) (n : Nat) (hn : 1 ≤ n) :
    sar (v + 2 ^ (n - 1)) n - sar (v + (2 ^ (n - 1) - 1)) n
      = if v % 2 ^ n = 2 ^ (n - 1) then 1 else 0 := by
  have he : (2 : Int) ^ n = 2 * 2 ^ (n - 1) := by
    rw [← pow_succ']
    congr 1
    omega
  have h3 : (1 : Int) ≤ 2 ^ (n - 1) := one_le_two_pow_int (n - 1)
  rw [sar_eq_ediv, sar_eq_ediv]
  have hx : v + (2 ^ (n - 1) - 1) = (v + 2 ^ (n - 1)) - 1 := by ring
  rw [hx, ediv_sub_ediv_pred (v + 2 ^ (n - 1)) (2 ^ n)
    (show (0 : Int) < 2 ^ n by positivity)]
  have hcong : (v + 2 ^ (n - 1)) % 2 ^ n = 0 ↔ v % 2 ^ n = 2 ^ (n - 1) := by
    have hr0 : 0 ≤ v % 2 ^ n := Int.emod_nonneg v (by positivity)
    have hrc : v % 2 ^ n < 2 ^ n := Int.emod_lt_of_pos v (by positivity)
    have hsplit : v % 2 ^ n + 2 ^ (n - 1) < 2 ^ n ∨
        (0 ≤ v % 2 ^ n + 2 ^ (n - 1) - 2 ^ n ∧
          v % 2 ^ n + 2 ^ (n - 1) - 2 ^ n < 2 ^ n) := by omega
    have hv : (v + 2 ^ (n - 1)) % 2 ^ n = (v % 2 ^ n + 2 ^ (n - 1)) % 2 ^ n := by
      conv_lhs => rw [Int.add_emod]
      rw [Int.emod_eq_of_lt (show (0 : Int) ≤ 2 ^ (n - 1) by positivity)
        (by omega)]
    rcases hsplit with hlt | ⟨hge1, hge2⟩
    · rw [hv, Int.emod_eq_of_lt (by omega) hlt]
      omega
    · have : (v % 2 ^ n + 2 ^ (n - 1)) % 2 ^ n
          = (v % 2 ^ n + 2 ^ (n - 1) - 2 ^ n) % 2 ^ n := by
        have hform : v % 2 ^ n + 2 ^ (n - 1) - 2 ^ n
            = (v % 2 ^ n + 2 ^ (n - 1)) + 2 ^ n * (-1) := by ring
        rw [hform, Int.add_mul_emod_self_left]
      rw [hv, this, Int.emod_eq_of_lt hge1 hge2]
      omega
  split
  · rename_i hcg
    rw [if_pos (hcong.mp hcg)]
  · rename_i hcg
    rw [if_neg (fun hc => hcg (hcong.mpr hc))]

/-- C4: each scale function is the arithmetic right shift of the value
plus the mode-dependent bias (`2^(n-1)` for RHU, `2^(n-1)-1` for RHD,
sign-selected for RHAZ and RHTZ), for `n ≥ 1` and representable values;
including the particular values `scale(5,1,RHU)=3`, `scale(5,1,RHD)=2`,
`scale(-5,1,RHAZ)=-3` and `scale(-5,1,RHTZ)=-2`. -/
theorem fix32_scale_spec (v : Int) (n : Nat) (hn : 1 ≤ n) :
    (-2 ^ 31 ≤ v → v < 2 ^ 31 →
      fix32_scale_rhu_32 v n = sar (v + 2 ^ (n - 1)) n
      ∧ fix32_scale_rhd_32 v n = sar (v + (2 ^ (n - 1) - 1)) n
      ∧ fix32_scale_rhaz_32 v n
          = sar (v + (if 0 ≤ v then 2 ^ (n - 1) else 2 ^ (n - 1) - 1)) n
      ∧ fix32_scale_rhtz_32 v n
          = sar (v + (if 0 ≤ v then 2 ^ (n - 1) - 1 else 2 ^ (n - 1))) n)
    ∧ (fix32_scale_rhu_64 v n = sar (v + 2 ^ (n - 1)) n
      ∧ fix32_scale_rhd_64 v n = sar (v + (2 ^ (n - 1) - 1)) n
      ∧ (-2 ^ 63 ≤ v → v < 2 ^ 63 →
        fix32_scale_rhaz_64 v n
            = sar (v + (if 0 ≤ v then 2 ^ (n - 1) else 2 ^ (n - 1) - 1)) n
        ∧ fix32_scale_rhtz_64 v n
            = sar (v + (if 0 ≤ v then 2 ^ (n - 1) - 1 else 2 ^ (n - 1))) n))
    ∧ fix32_scale_rhu_32 5 1 = 3 ∧ fix32_scale_rhd_32 5 1 = 2
    ∧ fix32_scale_rhaz_32 (-5) 1 = -3 ∧ fix32_scale_rhtz_32 (-5) 1 = -2 := by
  have h3 : (1 : Int) ≤ 2 ^ (n - 1) := one_le_two_pow_int (n - 1)
  refine ⟨fun h1 h2 => ?_, ⟨?_, ?_, fun h1 h2 => ?_⟩, by decide, by decide,
    by decide, by decide⟩
  · refine ⟨?_, ?_, ?_, ?_⟩
    · exact toInt32_sar_fit hn (by omega) (by omega)
    · exact toInt32_sar_fit hn (by omega) (by omega)
    · unfold fix32_scale_rhaz_32
      rw [sar31_sign h1 h2]
      split
      · rw [toInt32_sar_fit hn (by omega) (by omega)]
        norm_num
      · rw [toInt32_sar_fit hn (by omega) (by omega)]
        ring_nf
    · unfold fix32_scale_rhtz_32
      rw [sar31_sign h1 h2]
      split
      · rw [toInt32_sar_fit hn (by omega) (by omega)]
        ring_nf
      · rw [toInt32_sar_fit hn (by omega) (by omega)]
        norm_num
  · rfl
  · rfl
  · constructor
    · unfold fix32_scale_rhaz_64
      rw [sar63_sign h1 h2]
      split
      · norm_num
      · ring_nf
    · unfold fix32_scale_rhtz_64
      rw [sar63_sign h1 h2]
      split
      · ring_nf
      · norm_num

/-- Witness for `fix32_scale_spec` at `v = 5`, `n = 1`. -/
theorem fix32_scale_spec_witness :
    fix32_scale_rhaz_32 5 1
      = sar (5 + (if (0 : Int) ≤ 5 then 2 ^ (1 - 1) else 2 ^ (1 - 1) - 1)) 1 :=
  ((fix32_scale_spec 5 1 (by decide)).1 (by decide) (by decide)).2.2.1

/-- C8: for `n ≥ 1` and representable `v` (32-bit and 64-bit domains),
RHU and RHD scaling differ by 0 or 1, and differ by exactly 1 precisely
when `v` is congruent to `2^(n-1)` modulo `2^n`. -/
theorem fix32_scale_rhu_rhd_diff (v : Int) (n : Nat) (hn : 1 ≤ n) :
    (-2 ^ 31 ≤ v → v < 2 ^ 31 →
      (fix32_scale_rhu_32 v n - fix32_scale_rhd_32 v n = 0
        ∨ fix32_scale_rhu_32 v n - fix32_scale_rhd_32 v n = 1)
      ∧ (fix32_scale_rhu_32 v n - fix32_scale_rhd_32 v n = 1
          ↔ v % 2 ^ n = 2 ^ (n - 1)))
    ∧ ((fix32_scale_rhu_64 v n - fix32_scale_rhd_64 v n = 0
        ∨ fix32_scale_rhu_64 v n - fix32_scale_rhd_64 v n = 1)
      ∧ (fix32_scale_rhu_64 v n - fix32_scale_rhd_64 v n = 1
          ↔ v % 2 ^ n = 2 ^ (n - 1))) := by
  have h3 : (1 : Int) ≤ 2 ^ (n - 1) := one_le_two_pow_int (n - 1)
  have hkey := sar_rhu_sub_rhd v n hn
  constructor
  · intro h1 h2
    have hu : fix32_scale_rhu_32 v n = sar (v + 2 ^ (n - 1)) n :=
      toInt32_sar_fit hn (by omega) (by omega)
    have hd : fix32_scale_rhd_32 v n = sar (v + (2 ^ (n - 1) - 1)) n :=
      toInt32_sar_fit hn (by omega) (by omega)
    rw [hu, hd, hkey]
    constructor
    · split <;> simp
    · split <;> simp_all
  · unfold fix32_scale_rhu_64 fix32_scale_rhd_64
    rw [hkey]
    constructor
    · split <;> simp
    · split <;> simp_all

/-- Witness for `fix32_scale_rhu_rhd_diff` at `v = 5`, `n = 1`. -/
theorem fix32_scale_rhu_rhd_diff_witness :
    fix32_scale_rhu_32 5 1 - fix32_scale_rhd_32 5 1 = 1
      ↔ (5 : Int) % 2 ^ 1 = 2 ^ (1 - 1) :=
  (((fix32_scale_rhu_rhd_diff 5 1 (by decide)).1 (by decide) (by decide))).2

/-! ## The parity correction of `fix32_invsqrt` (C6) -/

/-- C6: on entry, an odd caller-supplied scale makes `fix32_invsqrt`
replace `val` by `(val + 1) >> 1` and increment the scale by exactly 1
before the remaining processing (`invsqrt_core`); an even scale leaves
both unchanged. -/
theorem fix32_invsqrt_parity_spec (val : Nat) (scale : Int)
    (h : val < 2 ^ 32) :
    (scale % 2 = 1 →
      fix32_invsqrt val scale
        = invsqrt_core (((val + 1) % 2 ^ 32) >>> 1) (scale + 1))
    ∧ (scale % 2 = 0 → fix32_invsqrt val scale = invsqrt_core val scale) := by
  constructor <;> intro hp <;> unfold fix32_invsqrt invsqrt_parity <;> rw [hp]
  · rfl
  · show invsqrt_core ((val + 0) % 2 ^ 32 >>> 0) (scale + 0) = _
    rw [Nat.shiftRight_zero, Nat.add_zero, Nat.mod_eq_of_lt h, Int.add_zero]

/-- Witness for `fix32_invsqrt_parity_spec` at `val = 5`, `scale = 3`. -/
theorem fix32_invsqrt_parity_spec_witness :
    fix32_invsqrt 5 3 = invsqrt_core (((5 + 1) % 2 ^ 32) >>> 1) (3 + 1) :=
  (fix32_invsqrt_parity_spec 5 3 (by decide)).1 (by decide)

/-! ## Totality and shift safety of `fix32_invsqrt` (C10) -/

theorem msbEven_le_30 (v : Nat) : msbEven v ≤ 30 := by
  unfold msbEven msbStep
  dsimp only
  split_ifs <;> simp

theorem newtonStep_lt (a r : Nat) : newtonStep a r < 2 ^ 32 :=
  Nat.mod_lt _ (by norm_num)

theorem invsqrt_mant_lt (a : Nat) : invsqrt_mant a < 2 ^ 32 :=
  newtonStep_lt a (newtonStep a (invsqrt_poly a))

theorem fix32_invsqrt_fst (val : Nat) (scale : Int) :
    (fix32_invsqrt val scale).1
      = invsqrt_mant (((invsqrt_parity val scale).1
          <<< (30 - msbEven (invsqrt_parity val scale).1)) % 2 ^ 32) := rfl

/-- C10: `fix32_invsqrt` is total on all inputs (including `val = 0`):
the bit scan always yields `msb_even ≤ 30` (so the shift amount
`30 - msb_even` lies in `[0, 30]`), the result is a well-formed 32-bit
value, and the Newton refinement runs exactly
`FIX32_INVSQRT_NEWTON_ITERS = 2` iterations. -/
theorem fix32_invsqrt_total (val : Nat) (scale : Int) (h : val < 2 ^ 32) :
    msbEven (invsqrt_parity val scale).1 ≤ 30
    ∧ (0 : Int) ≤ 30 - (msbEven (invsqrt_parity val scale).1 : Int)
    ∧ (30 : Int) - (msbEven (invsqrt_parity val scale).1 : Int) ≤ 30
    ∧ (fix32_invsqrt val scale).1 < 2 ^ 32
    ∧ FIX32_INVSQRT_NEWTON_ITERS = 2
    ∧ (∀ a : Nat, invsqrt_mant a
        = newtonStep a (newtonStep a (invsqrt_poly a))) := by
  have hm := msbEven_le_30 (invsqrt_parity val scale).1
  refine ⟨hm, by omega, by omega, ?_, rfl, fun a => rfl⟩
  rw [fix32_invsqrt_fst]
  exact invsqrt_mant_lt _

/-- Witness for `fix32_invsqrt_total` at `val = 0`, `scale = 5`. -/
theorem fix32_invsqrt_total_witness :
    (fix32_invsqrt 0 5).1 < 2 ^ 32 :=
  (fix32_invsqrt_total 0 5 (by norm_num)).2.2.2.1

/-! ## The overflow test of `fix32_mul` (C2) -/

theorem mask_testBit (i : Nat) :
    Nat.testBit fix32_mul_mask i = (decide (31 ≤ i) && decide (i < 64)) := by
  rcases Nat.lt_or_ge i 64 with h | h
  · have hb : ∀ j, j < 64 →
        Nat.testBit fix32_mul_mask j = (decide (31 ≤ j) && decide (j < 64)) := by
      decide
    exact hb i h
  · have h1 : fix32_mul_mask < 2 ^ i := by
      calc fix32_mul_mask < 2 ^ 64 := by norm_num [fix32_mul_mask]
      _ ≤ 2 ^ i := Nat.pow_le_pow_right (by norm_num) h
    rw [Nat.testBit_lt_two_pow h1]
    simp
    exact fun _ => h

theorem land_mask_eq (x : Nat) (hx : x < 2 ^ 64) :
    x &&& fix32_mul_mask = (x >>> 31) <<< 31 := by
  apply Nat.eq_of_testBit_eq
  intro i
  rw [Nat.testBit_land, mask_testBit, Nat.testBit_shiftLeft,
    Nat.testBit_shiftRight]
  rcases Nat.lt_or_ge i 31 with h31 | h31
  · simp [Nat.not_le.mpr h31]
  · rcases Nat.lt_or_ge i 64 with h64 | h64
    · have : 31 + (i - 31) = i := by omega
      rw [this]
      simp [h31, h64]
    · have hxb : Nat.testBit x i = false :=
        Nat.testBit_lt_two_pow (lt_of_lt_of_le hx
          (Nat.pow_le_pow_right (by norm_num) h64))
      have hxb2 : Nat.testBit x (31 + (i - 31)) = false := by
        rw [show 31 + (i - 31) = i by omega]
        exact hxb
      simp [hxb, hxb2]

/-- The mask comparison of `fix32_mul` fires exactly when the rescaled
intermediate does not fit the signed 32-bit range. -/
theorem overflow_test_iff (p : Int) (h1 : -2 ^ 63 ≤ p) (h2 : p < 2 ^ 63) :
    ((bits64 p &&& fix32_mul_mask) ≠ (bits64 (sar p 32) &&& fix32_mul_mask)
      ↔ (p < -2 ^ 31 ∨ 2 ^ 31 ≤ p)) := by
  have hb1 : bits64 p < 2 ^ 64 := by
    unfold bits64
    omega
  have hb2 : bits64 (sar p 32) < 2 ^ 64 := by
    unfold bits64
    omega
  rw [land_mask_eq _ hb1, land_mask_eq _ hb2]
  have hinj : ∀ u v : Nat, (u <<< 31 = v <<< 31) ↔ u = v := by
    intro u v
    rw [Nat.shiftLeft_eq, Nat.shiftLeft_eq]
    constructor
    · intro hw
      exact Nat.eq_of_mul_eq_mul_right (by norm_num) hw
    · intro hw
      rw [hw]
  rw [ne_eq, hinj, Nat.shiftRight_eq_div_pow, Nat.shiftRight_eq_div_pow]
  unfold bits64
  rw [sar_eq_ediv]
  have hN1 : ((p % 2 ^ 64).toNat : Int) = p % 2 ^ 64 :=
    Int.toNat_of_nonneg (Int.emod_nonneg _ (by norm_num))
  have hN2 : (((p / 2 ^ 32) % 2 ^ 64).toNat : Int) = (p / 2 ^ 32) % 2 ^ 64 :=
    Int.toNat_of_nonneg (Int.emod_nonneg _ (by norm_num))
  generalize hA : (p % 2 ^ 64).toNat = N1 at *
  generalize hB : ((p / 2 ^ 32) % 2 ^ 64).toNat = N2 at *
  rcases lt_or_ge p 0 with hneg | hpos
  · have hq : -2 ^ 31 ≤ p / 2 ^ 32 ∧ p / 2 ^ 32 < 0 := by omega
    have hm2 : (p / 2 ^ 32) % 2 ^ 64 = p / 2 ^ 32 + 2 ^ 64 := by omega
    have hm1 : p % 2 ^ 64 = p + 2 ^ 64 := by omega
    rw [hm1] at hN1
    rw [hm2] at hN2
    omega
  · have hq : 0 ≤ p / 2 ^ 32 ∧ p / 2 ^ 32 < 2 ^ 31 := by omega
    have hm2 : (p / 2 ^ 32) % 2 ^ 64 = p / 2 ^ 32 := by omega
    have hm1 : p % 2 ^ 64 = p := by omega
    rw [hm1] at hN1
    rw [hm2] at hN2
    omega

/-- C2: for int32 `a`, `b` and `n ≥ 1`, the configured overflow action of
`fix32_mul` fires exactly when the RHAZ-rescaled 64-bit product lies
outside the signed 32-bit range; without an action the function returns
the low 32 bits of that intermediate (two's complement wraparound) and
never signals. -/
theorem fix32_mul_spec (a b : Int) (n : Nat) (hn : 1 ≤ n)
    (ha1 : -2 ^ 31 ≤ a) (ha2 : a < 2 ^ 31)
    (hb1 : -2 ^ 31 ≤ b) (hb2 : b < 2 ^ 31) :
    (fix32_mul_overflow a b n = true
      ↔ ¬(-2 ^ 31 ≤ fix32_mul_prod a b n ∧ fix32_mul_prod a b n < 2 ^ 31))
    ∧ fix32_mul a b n % 2 ^ 32 = fix32_mul_prod a b n % 2 ^ 32
    ∧ -2 ^ 31 ≤ fix32_mul a b n ∧ fix32_mul a b n < 2 ^ 31 := by
  have hab : -2 ^ 62 ≤ a * b ∧ a * b ≤ 2 ^ 62 := by
    have haa : |a| ≤ 2 ^ 31 := by
      rw [abs_le]
      omega
    have hbb : |b| ≤ 2 ^ 31 := by
      rw [abs_le]
      omega
    have := abs_mul a b ▸ mul_le_mul haa hbb (abs_nonneg b) (by norm_num)
    rw [abs_le] at this
    constructor <;> [exact le_trans (by norm_num) this.1;
      exact le_trans this.2 (by norm_num)]
  have hbias : sar (a * b) 63 = if 0 ≤ a * b then 0 else -1 :=
    sar63_sign (by omega) (by omega)
  have hpb : -2 ^ 63 ≤ fix32_mul_prod a b n ∧ fix32_mul_prod a b n < 2 ^ 63 := by
    unfold fix32_mul_prod fix32_scale_rhaz_64
    rw [hbias]
    have h3 : (1 : Int) ≤ 2 ^ (n - 1) := one_le_two_pow_int (n - 1)
    constructor
    · apply sar_lower
      · split <;> omega
      · norm_num
    · apply sar_upper hn (by norm_num)
      split <;> omega
  constructor
  · unfold fix32_mul_overflow
    rw [decide_eq_true_iff]
    exact (overflow_test_iff _ hpb.1 hpb.2).trans (by omega)
  · unfold fix32_mul toInt32
    refine ⟨by omega, by omega, by omega⟩

/-- Witness for `fix32_mul_spec` at `a = b = 0x7FFFFFFF`, `n = 1`
(the rescaled product overflows the 32-bit range there). -/
theorem fix32_mul_spec_witness :
    fix32_mul_overflow 0x7FFFFFFF 0x7FFFFFFF 1 = true
      ↔ ¬(-2 ^ 31 ≤ fix32_mul_prod 0x7FFFFFFF 0x7FFFFFFF 1
          ∧ fix32_mul_prod 0x7FFFFFFF 0x7FFFFFFF 1 < 2 ^ 31) :=
  (fix32_mul_spec 0x7FFFFFFF 0x7FFFFFFF 1 (by decide) (by decide) (by decide)
    (by decide) (by decide)).1

/-! ## The argument order of `fix32_atan2` (C9)

The header `fix32math.h` declares `fix32_atan2(int32_t x, int32_t y, int
scale)` and documents the result as the arcus tangens of `y/x`, but the
definition in `src/fix32math.c` binds the first positional parameter as
`y` and the second as `x`.  Calling the exported symbol as the declared
contract directs — first argument `2^30` (intended `x = 1.0`), second
argument `0` (intended `y = 0`) at scale 30 — must return `0` per the
header, but the compiled code computes the angle of the vector
`(x = 0, y = 1.0)` and returns `pi/2`; dually for `(0, 2^30)`. -/

theorem fix32_atan2_arg_order :
    fix32_atan2 (2 ^ 30) 0 30 = 0x1921FB54
    ∧ fix32_atan2 0 (2 ^ 30) 30 = 0 := by
  constructor <;> decide

/-! ## Values of `fix32_atan2` on the coordinate axes (C5) -/

/-- C5: for every scale `S` for which the computation is defined (the
final rescaling shift `2*S - 32` must be a positive shift count, and
`2^S` must be representable, i.e. `17 ≤ S ≤ 30`), the vector `(1, 0)`
(raw `x = 2^S`, `y = 0`) yields angle 0, the vector `(0, 1)` yields
`pi/2 = 0x1921FB54`, and `(0, -1)` yields `-pi/2`. -/
theorem fix32_atan2_axes (S : Int) (h1 : 17 ≤ S) (h2 : S ≤ 30) :
    fix32_atan2 0 ((2 ^ S.toNat : Nat) : Int) S = 0
    ∧ fix32_atan2 ((2 ^ S.toNat : Nat) : Int) 0 S = 0x1921FB54
    ∧ fix32_atan2 (-((2 ^ S.toNat : Nat) : Int)) 0 S = -0x1921FB54 := by
  interval_cases S <;> exact ⟨by decide, by decide, by decide⟩

/-- Witness for `fix32_atan2_axes` at `S = 30`. -/
theorem fix32_atan2_axes_witness :
    fix32_atan2 0 ((2 ^ (30 : Int).toNat : Nat) : Int) 30 = 0 :=
  (fix32_atan2_axes 30 (by decide) (by decide)).1

/-! ## Octant decomposition of `fix32_atan2` (C3) -/

theorem atan2_octant_claim_eq (y x : Int) :
    atan2_octant_claim y x = atan2_octant y x := by
  have hx : |x| = if 0 ≤ x then x else -x := by
    split
    · exact abs_of_nonneg (by assumption)
    · exact abs_of_neg (by omega)
  have hy : |y| = if 0 ≤ y then y else -y := by
    split
    · exact abs_of_nonneg (by assumption)
    · exact abs_of_neg (by omega)
  unfold atan2_octant_claim atan2_octant
  rw [hx, hy]

theorem atan2_octant_cases (y x : Int) :
    atan2_octant y x = 0 ∨ atan2_octant y x = 1 ∨ atan2_octant y x = 2
    ∨ atan2_octant y x = 3 ∨ atan2_octant y x = 4 ∨ atan2_octant y x = 5
    ∨ atan2_octant y x = 6 ∨ atan2_octant y x = 7 := by
  unfold atan2_octant
  dsimp only
  split_ifs <;> omega

/-- C3: for inputs with `x` and `y` not both zero, `fix32_atan2` is the
composition the claim describes — octant from magnitude comparison and
the two sign mirrorings, then the per-octant recombination of the scaled
product with the constants `0x1921FB54` and `0x3243F6A9`. -/
theorem fix32_atan2_octant_spec (y x scale : Int) (h : ¬(x = 0 ∧ y = 0)) :
    fix32_atan2 y x scale = atan2_claim y x scale := by
  have ho := atan2_octant_cases y x
  rcases ho with h' | h' | h' | h' | h' | h' | h' | h' <;>
    simp [fix32_atan2, atan2_claim, atan2_octant_claim_eq, h',
      fix32_pi_half, fix32_pi]

/-- Witness for `fix32_atan2_octant_spec` at `y = 1`, `x = 1`,
`scale = 30`. -/
theorem fix32_atan2_octant_spec_witness :
    fix32_atan2 1 1 30 = atan2_claim 1 1 30 :=
  fix32_atan2_octant_spec 1 1 30 (by simp)

/-! ## The bit scan of `fix32_invsqrt` (C7)

The claim says `msb_even` is the index of the highest set bit rounded
*up* to the nearest even index; the code rounds it *down* (the mantissa
satisfies `1 ≤ a < 4`, i.e. `val = a * 2^msb_even` with the highest set
bit at index `msb_even` or `msb_even + 1`).  At `val = 2` the highest set
bit has odd index 1, and the bit scan yields 0, not 2. -/

/-- C7 counterexample: at `val = 2` (highest set bit at the odd index 1)
the code computes `msb_even = 0`, not `1 + 1 = 2` as claimed. -/
theorem msbEven_round_up_counterexample :
    msbEven 2 = 0 ∧ Nat.log2 2 = 1 ∧ ¬(msbEven 2 = Nat.log2 2 + 1) := by
  have hl : Nat.log2 2 = 1 := by simp [Nat.log2]
  refine ⟨by decide, hl, ?_⟩
  rw [hl]
  decide

theorem land_ne_zero_of_testBit {a b : Nat} (i : Nat)
    (ha : a.testBit i = true) (hb : b.testBit i = true) : a &&& b ≠ 0 := by
  intro h0
  have hc := Nat.testBit_land a b i
  rw [h0, Nat.zero_testBit, ha, hb] at hc
  simp at hc

theorem land_eq_zero_of_disjoint {a b : Nat}
    (h : ∀ i, a.testBit i = true → b.testBit i = false) : a &&& b = 0 := by
  apply Nat.eq_of_testBit_eq
  intro i
  rw [Nat.testBit_land, Nat.zero_testBit]
  rcases hA : a.testBit i
  · simp
  · rw [h i hA]
    simp

theorem mask_high_false {M : Nat} (hM : M < 2 ^ 32) (i : Nat) (hi : 32 ≤ i) :
    M.testBit i = false :=
  Nat.testBit_lt_two_pow
    (lt_of_lt_of_le hM (Nat.pow_le_pow_right (by norm_num) hi))

/-- Stage of the bit scan for mask `0xFFFF0000` (group size 16). -/
theorem msb_stage16 (vm : Nat × Nat) (h : Nat) (hh : h < 32)
    (hvb : vm.1.testBit h = true)
    (hinv : ∀ i, vm.1.testBit i = true → h - h % 32 ≤ i ∧ i ≤ h) :
    (msbStep vm 0xFFFF0000 16).2 = vm.2 + 16 * (h % 32 / 16)
    ∧ (msbStep vm 0xFFFF0000 16).1.testBit h = true
    ∧ (∀ i, (msbStep vm 0xFFFF0000 16).1.testBit i = true →
        h - h % 16 ≤ i ∧ i ≤ h) := by
  have hmbits : ∀ i, i < 32 →
      (Nat.testBit 0xFFFF0000 i = decide (16 ≤ i % 32)) := by decide
  unfold msbStep
  rcases Nat.lt_or_ge (h % 32) 16 with hb | hb
  · have hz : vm.1 &&& 0xFFFF0000 = 0 := by
      apply land_eq_zero_of_disjoint
      intro i hi
      rcases hinv i hi with ⟨hi1, hi2⟩
      rw [hmbits i (by omega)]
      simp
      omega
    rw [if_neg (not_not_intro hz)]
    refine ⟨by omega, hvb, fun i hi => ?_⟩
    rcases hinv i hi with ⟨hi1, hi2⟩
    constructor <;> omega
  · have hmh : Nat.testBit 0xFFFF0000 h = true := by
      rw [hmbits h hh]
      simp
      omega
    rw [if_pos (land_ne_zero_of_testBit h hvb hmh)]
    refine ⟨by dsimp only; omega, ?_, fun i hi => ?_⟩
    · dsimp only
      rw [Nat.testBit_land, hvb, hmh]
      rfl
    · dsimp only at hi
      rw [Nat.testBit_land, Bool.and_eq_true] at hi
      rcases hi with ⟨hvi, hmi⟩
      rcases hinv i hvi with ⟨hi1, hi2⟩
      rw [hmbits i (by omega)] at hmi
      simp at hmi
      constructor <;> omega

/-- Stage of the bit scan for mask `0xFF00FF00` (group size 8). -/
theorem msb_stage8 (vm : Nat × Nat) (h : Nat) (hh : h < 32)
    (hvb : vm.1.testBit h = true)
    (hinv : ∀ i, vm.1.testBit i = true → h - h % 16 ≤ i ∧ i ≤ h) :
    (msbStep vm 0xFF00FF00 8).2 = vm.2 + 8 * (h % 16 / 8)
    ∧ (msbStep vm 0xFF00FF00 8).1.testBit h = true
    ∧ (∀ i, (msbStep vm 0xFF00FF00 8).1.testBit i = true →
        h - h % 8 ≤ i ∧ i ≤ h) := by
  have hmbits : ∀ i, i < 32 →
      (Nat.testBit 0xFF00FF00 i = decide (8 ≤ i % 16)) := by decide
  unfold msbStep
  rcases Nat.lt_or_ge (h % 16) 8 with hb | hb
  · have hz : vm.1 &&& 0xFF00FF00 = 0 := by
      apply land_eq_zero_of_disjoint
      intro i hi
      rcases hinv i hi with ⟨hi1, hi2⟩
      rw [hmbits i (by omega)]
      simp
      omega
    rw [if_neg (not_not_intro hz)]
    refine ⟨by omega, hvb, fun i hi => ?_⟩
    rcases hinv i hi with ⟨hi1, hi2⟩
    constructor <;> omega
  · have hmh : Nat.testBit 0xFF00FF00 h = true := by
      rw [hmbits h hh]
      simp
      omega
    rw [if_pos (land_ne_zero_of_testBit h hvb hmh)]
    refine ⟨by dsimp only; omega, ?_, fun i hi => ?_⟩
    · dsimp only
      rw [Nat.testBit_land, hvb, hmh]
      rfl
    · dsimp only at hi
      rw [Nat.testBit_land, Bool.and_eq_true] at hi
      rcases hi with ⟨hvi, hmi⟩
      rcases hinv i hvi with ⟨hi1, hi2⟩
      rw [hmbits i (by omega)] at hmi
      simp at hmi
      constructor <;> omega

/-- Stage of the bit scan for mask `0xF0F0F0F0` (group size 4). -/
theorem msb_stage4 (vm : Nat × Nat) (h : Nat) (hh : h < 32)
    (hvb : vm.1.testBit h = true)
    (hinv : ∀ i, vm.1.testBit i = true → h - h % 8 ≤ i ∧ i ≤ h) :
    (msbStep vm 0xF0F0F0F0 4).2 = vm.2 + 4 * (h % 8 / 4)
    ∧ (msbStep vm 0xF0F0F0F0 4).1.testBit h = true
    ∧ (∀ i, (msbStep vm 0xF0F0F0F0 4).1.testBit i = true →
        h - h % 4 ≤ i ∧ i ≤ h) := by
  have hmbits : ∀ i, i < 32 →
      (Nat.testBit 0xF0F0F0F0 i = decide (4 ≤ i % 8)) := by decide
  unfold msbStep
  rcases Nat.lt_or_ge (h % 8) 4 with hb | hb
  · have hz : vm.1 &&& 0xF0F0F0F0 = 0 := by
      apply land_eq_zero_of_disjoint
      intro i hi
      rcases hinv i hi with ⟨hi1, hi2⟩
      rw [hmbits i (by omega)]
      simp
      omega
    rw [if_neg (not_not_intro hz)]
    refine ⟨by omega, hvb, fun i hi => ?_⟩
    rcases hinv i hi with ⟨hi1, hi2⟩
    constructor <;> omega
  · have hmh : Nat.testBit 0xF0F0F0F0 h = true := by
      rw [hmbits h hh]
      simp
      omega
    rw [if_pos (land_ne_zero_of_testBit h hvb hmh)]
    refine ⟨by dsimp only; omega, ?_, fun i hi => ?_⟩
    · dsimp only
      rw [Nat.testBit_land, hvb, hmh]
      rfl
    · dsimp only at hi
      rw [Nat.testBit_land, Bool.and_eq_true] at hi
      rcases hi with ⟨hvi, hmi⟩
      rcases hinv i hvi with ⟨hi1, hi2⟩
      rw [hmbits i (by omega)] at hmi
      simp at hmi
      constructor <;> omega

/-- Final stage of the bit scan for mask `0xCCCCCCCC` (group size 2);
this block does not update `val_copy`. -/
theorem msb_stage2 (vm : Nat × Nat) (h : Nat) (hh : h < 32)
    (hvb : vm.1.testBit h = true)
    (hinv : ∀ i, vm.1.testBit i = true → h - h % 4 ≤ i ∧ i ≤ h) :
    (if vm.1 &&& 0xCCCCCCCC ≠ 0 then vm.2 + 2 else vm.2)
      = vm.2 + 2 * (h % 4 / 2) := by
  have hmbits : ∀ i, i < 32 →
      (Nat.testBit 0xCCCCCCCC i = decide (2 ≤ i % 4)) := by decide
  rcases Nat.lt_or_ge (h % 4) 2 with hb | hb
  · have hz : vm.1 &&& 0xCCCCCCCC = 0 := by
      apply land_eq_zero_of_disjoint
      intro i hi
      rcases hinv i hi with ⟨hi1, hi2⟩
      rw [hmbits i (by omega)]
      simp
      omega
    rw [if_neg (not_not_intro hz)]
    omega
  · have hmh : Nat.testBit 0xCCCCCCCC h = true := by
      rw [hmbits h hh]
      simp
      omega
    rw [if_pos (land_ne_zero_of_testBit h hvb hmh)]
    omega

/-- Characterisation of the bit scan: for nonzero 32-bit `val`, `msbEven`
computes the index of the highest set bit rounded *down* to the nearest
even index (shared helper, used both for C7 and for the mantissa
normalisation argument of C1). -/
theorem msbEven_log2_char (val : Nat) (h1 : 1 ≤ val)
    (h2 : val < 2 ^ 32) :
    msbEven val = 2 * (Nat.log2 val / 2) := by
  have hlb : 2 ^ Nat.log2 val ≤ val := Nat.log2_self_le (by omega)
  have hub : val < 2 ^ (Nat.log2 val + 1) := Nat.lt_log2_self
  obtain ⟨h, hdef⟩ : ∃ h, Nat.log2 val = h := ⟨_, rfl⟩
  rw [hdef] at hlb hub ⊢
  have hh32 : h < 32 := by
    by_contra hcon
    push_neg at hcon
    have : (2 : Nat) ^ 32 ≤ 2 ^ h := Nat.pow_le_pow_right (by norm_num) hcon
    omega
  have hponed : (2 : Nat) ^ (h + 1) = 2 * 2 ^ h := by
    rw [pow_succ]
    ring
  have hvb : val.testBit h = true := by
    rw [Nat.testBit_to_div_mod]
    have hq : val / 2 ^ h = 1 :=
      Nat.div_eq_of_lt_le (by omega) (by omega)
    rw [hq]
    rfl
  have hinv0 : ∀ i, val.testBit i = true → h - h % 32 ≤ i ∧ i ≤ h := by
    intro i hi
    have hile : i ≤ h := by
      by_contra hcon
      push_neg at hcon
      have hlt : val < 2 ^ i := lt_of_lt_of_le hub
        (Nat.pow_le_pow_right (by norm_num) (by omega))
      rw [Nat.testBit_lt_two_pow hlt] at hi
      exact Bool.noConfusion hi
    exact ⟨by omega, hile⟩
  obtain ⟨e16, b16, i16⟩ := msb_stage16 (val, 0) h hh32 hvb hinv0
  obtain ⟨e8, b8, i8⟩ := msb_stage8 _ h hh32 b16 i16
  obtain ⟨e4, b4, i4⟩ := msb_stage4 _ h hh32 b8 i8
  have e2 := msb_stage2 _ h hh32 b4 i4
  unfold msbEven
  dsimp only
  rw [e2, e4, e8, e16]
  omega

/-- C7 (amended): for every nonzero 32-bit `val`, the bit scan computes
the index of the highest set bit rounded *down* to the nearest even
index. -/
theorem msbEven_eq_log2_round_down (val : Nat) (h1 : 1 ≤ val)
    (h2 : val < 2 ^ 32) :
    msbEven val = 2 * (Nat.log2 val / 2) :=
  msbEven_log2_char val h1 h2

/-- Witness for `msbEven_eq_log2_round_down` at `val = 0x8000`. -/
theorem msbEven_eq_log2_round_down_witness :
    msbEven 0x8000 = 2 * (Nat.log2 0x8000 / 2) :=
  msbEven_eq_log2_round_down 0x8000 (by norm_num) (by norm_num)

/-! ## Soundness of the error-sweep infrastructure (towards C1)

First the corner bounds for the cubic interpolation: each of the three
polynomial terms is monotone in `a`, and under the per-box side
conditions the `uint32` subtractions and the final shift are exact. -/

theorem fix32_a_squ_mono {a b : Nat} (hab : a ≤ b) :
    fix32_a_squ a ≤ fix32_a_squ b := by
  unfold fix32_a_squ
  rw [Nat.shiftRight_eq_div_pow, Nat.shiftRight_eq_div_pow]
  exact Nat.div_le_div_right
    (Nat.add_le_add_right (Nat.mul_le_mul hab hab) _)

theorem fix32_a_cub_mono {a b : Nat} (hab : a ≤ b) :
    fix32_a_cub a ≤ fix32_a_cub b := by
  unfold fix32_a_cub
  rw [Nat.shiftRight_eq_div_pow, Nat.shiftRight_eq_div_pow]
  exact Nat.div_le_div_right
    (Nat.add_le_add_right (Nat.mul_le_mul hab (fix32_a_squ_mono hab)) _)

theorem fix32_t19_mono {a b : Nat} (hab : a ≤ b) :
    fix32_t19 a ≤ fix32_t19 b := by
  unfold fix32_t19
  rw [Nat.shiftRight_eq_div_pow, Nat.shiftRight_eq_div_pow]
  exact Nat.div_le_div_right (Nat.add_le_add_right
    (Nat.mul_le_mul_left _ (fix32_a_squ_mono hab)) _)

theorem fix32_t137_mono {a b : Nat} (hab : a ≤ b) :
    fix32_t137 a ≤ fix32_t137 b := by
  unfold fix32_t137
  rw [Nat.shiftRight_eq_div_pow, Nat.shiftRight_eq_div_pow]
  exact Nat.div_le_div_right (Nat.add_le_add_right
    (Nat.mul_le_mul_left _ hab) _)

theorem fix32_t11_mono {a b : Nat} (hab : a ≤ b) :
    fix32_t11 a ≤ fix32_t11 b := by
  unfold fix32_t11
  rw [Nat.shiftRight_eq_div_pow, Nat.shiftRight_eq_div_pow]
  exact Nat.div_le_div_right (Nat.add_le_add_right
    (Nat.mul_le_mul_left _ (fix32_a_cub_mono hab)) _)

theorem fix32_a_squ_lt {a : Nat} (ha : a < 2 ^ 32) :
    fix32_a_squ a < 2 ^ 31 := by
  unfold fix32_a_squ
  rw [Nat.shiftRight_eq_div_pow, Nat.div_lt_iff_lt_mul (by norm_num)]
  have h1 : a * a ≤ (2 ^ 32 - 1) * (2 ^ 32 - 1) :=
    Nat.mul_le_mul (by omega) (by omega)
  omega

theorem fix32_t19_lt {a : Nat} (ha : a < 2 ^ 32) :
    fix32_t19 a < 2 ^ 30 := by
  unfold fix32_t19
  rw [Nat.shiftRight_eq_div_pow, Nat.div_lt_iff_lt_mul (by norm_num)]
  have h1 : frac_19_72 * fix32_a_squ a ≤ 2266788295 * (2 ^ 31 - 1) :=
    Nat.mul_le_mul (by norm_num [frac_19_72])
      (by have := fix32_a_squ_lt ha; omega)
  omega

theorem usub32_eq {x y : Nat} (h1 : y ≤ x) (h2 : x < 2 ^ 32) :
    usub32 x y = x - y := by
  unfold usub32
  omega

/-- Corner bounds for `invsqrt_poly` on a box, under the per-box
well-formedness conditions checked by `checkBox`. -/
theorem invsqrt_poly_bounds {alo ahi a : Nat} (ha1 : alo ≤ a) (ha2 : a ≤ ahi)
    (h32 : ahi < 2 ^ 32)
    (hnu : fix32_t137 ahi + fix32_t11 ahi ≤ frac_185_108 + fix32_t19 alo)
    (hnw : frac_185_108 + fix32_t19 ahi - fix32_t137 alo - fix32_t11 alo
      < 2 ^ 29) :
    (frac_185_108 + fix32_t19 alo - fix32_t137 ahi - fix32_t11 ahi) <<< 3
      ≤ invsqrt_poly a
    ∧ invsqrt_poly a
      ≤ (frac_185_108 + fix32_t19 ahi - fix32_t137 alo - fix32_t11 alo)
          <<< 3 := by
  have ha32 : a < 2 ^ 32 := by omega
  have m19l := fix32_t19_mono ha1
  have m19h := fix32_t19_mono ha2
  have m137l := fix32_t137_mono ha1
  have m137h := fix32_t137_mono ha2
  have m11l := fix32_t11_mono ha1
  have m11h := fix32_t11_mono ha2
  have hXlt : frac_185_108 + fix32_t19 a < 2 ^ 32 := by
    have := fix32_t19_lt ha32
    norm_num [frac_185_108]
    omega
  have hu1 : usub32 (frac_185_108 + fix32_t19 a) (fix32_t137 a)
      = frac_185_108 + fix32_t19 a - fix32_t137 a :=
    usub32_eq (by omega) hXlt
  have hu2 : usub32 (frac_185_108 + fix32_t19 a - fix32_t137 a) (fix32_t11 a)
      = frac_185_108 + fix32_t19 a - fix32_t137 a - fix32_t11 a :=
    usub32_eq (by omega) (by omega)
  unfold invsqrt_poly
  rw [hu1, hu2]
  rw [Nat.shiftLeft_eq, Nat.shiftLeft_eq, Nat.shiftLeft_eq]
  have hV : frac_185_108 + fix32_t19 a - fix32_t137 a - fix32_t11 a < 2 ^ 29 :=
    by omega
  rw [Nat.mod_eq_of_lt (by omega)]
  constructor <;> [apply Nat.mul_le_mul_right; apply Nat.mul_le_mul_right]
    <;> omega

/-! Window bounds for the Newton half-term: writing `q := a * res^2`,
the value `h := half_a_res_squ` computed by the code satisfies
`hdnQ q ≤ h ≤ hupQ q`.  This is what lets the sweep track a single
scalar invariant `q` instead of the pair `(a, res)`. -/

theorem half_le_hupQ (a res : Nat) (ha : a < 2 ^ 32) :
    half_a_res_squN a res ≤ hupQ (a * res ^ 2) := by
  unfold half_a_res_squN res_squN hupQ
  rw [Nat.shiftRight_eq_div_pow, Nat.shiftRight_eq_div_pow]
  set S := (res * res + 1 <<< 32) / 2 ^ 33 with hSdef
  have hS : S * 2 ^ 33 ≤ res * res + 2 ^ 32 := by
    have := Nat.div_mul_le_self (res * res + 1 <<< 32) (2 ^ 33)
    rw [← hSdef] at this
    omega
  have h1 : a * S * 2 ^ 33 ≤ a * (res * res) + a * 2 ^ 32 := by
    calc a * S * 2 ^ 33 = a * (S * 2 ^ 33) := by ring
      _ ≤ a * (res * res + 2 ^ 32) := Nat.mul_le_mul_left _ hS
      _ = a * (res * res) + a * 2 ^ 32 := by ring
  have h2 : a * 2 ^ 32 ≤ 2 ^ 64 := by
    have : a * 2 ^ 32 ≤ 2 ^ 32 * 2 ^ 32 := Nat.mul_le_mul_right _ (by omega)
    omega
  rw [Nat.le_div_iff_mul_le (show 0 < 2 ^ 66 by norm_num)]
  have h3 : ((a * S + 1 <<< 32) / 2 ^ 33) * 2 ^ 33 ≤ a * S + 2 ^ 32 := by
    have := Nat.div_mul_le_self (a * S + 1 <<< 32) (2 ^ 33)
    omega
  calc ((a * S + 1 <<< 32) / 2 ^ 33) * 2 ^ 66
      = (((a * S + 1 <<< 32) / 2 ^ 33) * 2 ^ 33) * 2 ^ 33 := by ring
    _ ≤ (a * S + 2 ^ 32) * 2 ^ 33 := Nat.mul_le_mul_right _ h3
    _ = a * S * 2 ^ 33 + 2 ^ 65 := by ring
    _ ≤ (a * (res * res) + 2 ^ 64) + 2 ^ 65 := by nlinarith [h1, h2]
    _ = a * res ^ 2 + 2 ^ 64 + 2 ^ 65 := by ring

theorem hdnQ_le_half (a res : Nat) (ha : a < 2 ^ 32) :
    hdnQ (a * res ^ 2) ≤ half_a_res_squN a res := by
  unfold half_a_res_squN res_squN hdnQ
  rw [Nat.shiftRight_eq_div_pow, Nat.shiftRight_eq_div_pow]
  set S := (res * res + 1 <<< 32) / 2 ^ 33 with hSdef
  set h := (a * S + 1 <<< 32) / 2 ^ 33 with hhdef
  have hS2 : res * res + 2 ^ 32 < S * 2 ^ 33 + 2 ^ 33 := by
    have hdm := Nat.div_add_mod (res * res + 1 <<< 32) (2 ^ 33)
    have hml : (res * res + 1 <<< 32) % 2 ^ 33 < 2 ^ 33 :=
      Nat.mod_lt _ (by norm_num)
    rw [← hSdef] at hdm
    omega
  have hh2 : a * S + 2 ^ 32 < h * 2 ^ 33 + 2 ^ 33 := by
    have hdm := Nat.div_add_mod (a * S + 1 <<< 32) (2 ^ 33)
    have hml : (a * S + 1 <<< 32) % 2 ^ 33 < 2 ^ 33 :=
      Nat.mod_lt _ (by norm_num)
    rw [← hhdef] at hdm
    omega
  have h1 : a * (res * res) + a * 2 ^ 32 ≤ a * S * 2 ^ 33 + a * 2 ^ 33 := by
    calc a * (res * res) + a * 2 ^ 32 = a * (res * res + 2 ^ 32) := by ring
      _ ≤ a * (S * 2 ^ 33 + 2 ^ 33) := Nat.mul_le_mul_left _ (by omega)
      _ = a * S * 2 ^ 33 + a * 2 ^ 33 := by ring
  have h2 : a * 2 ^ 33 ≤ 2 ^ 65 := by
    have : a * 2 ^ 33 ≤ 2 ^ 32 * 2 ^ 33 := Nat.mul_le_mul_right _ (by omega)
    omega
  have h3 : a * S * 2 ^ 33 ≤ h * 2 ^ 66 + 2 ^ 66 := by
    calc a * S * 2 ^ 33 ≤ (h * 2 ^ 33 + 2 ^ 33) * 2 ^ 33 :=
          Nat.mul_le_mul_right _ (by omega)
      _ = h * 2 ^ 66 + 2 ^ 66 := by ring
  have h4 : a * res ^ 2 ≤ h * 2 ^ 66 + 2 ^ 66 + 2 ^ 65 := by
    have hq : a * res ^ 2 = a * (res * res) := by ring
    omega
  rw [Nat.div_le_iff_le_mul_add_pred (show 0 < 2 ^ 66 by norm_num)]
  omega

/-! One Newton iteration, tracked through the scalar invariant
`q = a * res^2`: the computed step stays above `qstepLo q` and, whenever
`q ≤ 5 * 2^89`, the next `q` never exceeds `CAPQ` (the fixed point `2^90`
plus rounding noise; certified by the cubic AM-GM certificate
`4*C^3 - 27*u*(C-u)^2 = (C-3*u)^2*(4*C-3*u)`). -/

theorem half_le_of_q (a res : Nat) (ha : a < 2 ^ 32)
    (hq : a * res ^ 2 ≤ 5 * 2 ^ 89) :
    half_a_res_squN a res ≤ 41943040 := by
  have h1 := half_le_hupQ a res ha
  have h2 : hupQ (a * res ^ 2) ≤ 41943040 := by
    unfold hupQ
    omega
  omega

theorem newtonStep_eq (a res : Nat) (ha : a < 2 ^ 32) (hres : res ≤ 2 ^ 31)
    (hq : a * res ^ 2 ≤ 5 * 2 ^ 89) :
    newtonStep a res
      = (res * (fix32_1p5 - half_a_res_squN a res) + 2 ^ 24) / 2 ^ 25 := by
  have hC : fix32_1p5 = 50331648 := by decide
  have hh := half_le_of_q a res ha hq
  unfold newtonStep
  rw [usub32_eq (by omega) (by omega)]
  rw [Nat.shiftRight_eq_div_pow]
  have hb : res * (fix32_1p5 - half_a_res_squN a res) ≤ 2 ^ 31 * 50331648 :=
    Nat.mul_le_mul hres (by omega)
  rw [Nat.mod_eq_of_lt (by omega)]
  omega

theorem ares_le (a res : Nat) (ha : a < 2 ^ 32)
    (hq : a * res ^ 2 ≤ 5 * 2 ^ 89) :
    a * res ≤ 2 ^ 62 := by
  by_contra hc
  push_neg at hc
  have h1 : (2 ^ 62 + 1) * (2 ^ 62 + 1) ≤ (a * res) * (a * res) :=
    Nat.mul_le_mul (by omega) (by omega)
  have h2 : (a * res) * (a * res) = a * (a * res ^ 2) := by ring
  have h3 : a * (a * res ^ 2) ≤ 2 ^ 32 * (5 * 2 ^ 89) :=
    Nat.mul_le_mul (by omega) hq
  omega

theorem newton_q_lower (a res : Nat) (ha : a < 2 ^ 32)
    (hres : res ≤ 2 ^ 31) (hq : a * res ^ 2 ≤ 5 * 2 ^ 89) :
    qstepLo (a * res ^ 2) ≤ a * newtonStep a res ^ 2 := by
  have hC : fix32_1p5 = 50331648 := by decide
  have hh := half_le_of_q a res ha hq
  have hhu := half_le_hupQ a res ha
  have hupb : hupQ (a * res ^ 2) ≤ 41943040 := by
    unfold hupQ
    omega
  have hARle := ares_le a res ha hq
  have hNS := newtonStep_eq a res ha hres hq
  set T := newtonStep a res with hTdef
  set h := half_a_res_squN a res with hhdef
  set m := fix32_1p5 - h with hmdef
  have hmub : m ≤ 50331648 := by omega
  have hT1 : T * 2 ^ 25 ≤ res * m + 2 ^ 24 := by
    rw [hNS]
    exact Nat.div_mul_le_self _ _
  have hT2 : res * m + 2 ^ 24 < T * 2 ^ 25 + 2 ^ 25 := by
    rw [hNS]
    have hdm := Nat.div_add_mod (res * m + 2 ^ 24) (2 ^ 25)
    have hml : (res * m + 2 ^ 24) % 2 ^ 25 < 2 ^ 25 := Nat.mod_lt _ (by norm_num)
    omega
  unfold qstepLo
  set q := a * res ^ 2 with hqdef
  set mlo := fix32_1p5 - hupQ q with hmlodef
  have hmlom : mlo ≤ m := by omega
  by_cases hsmall : res * m ≤ 2 ^ 24
  · have h1 : res * mlo ≤ res * m := Nat.mul_le_mul_left _ hmlom
    have h2 : q * mlo ^ 2 = a * ((res * mlo) * (res * mlo)) := by
      rw [hqdef]; ring
    have h3 : (res * mlo) * (res * mlo) ≤ 2 ^ 24 * 2 ^ 24 :=
      Nat.mul_le_mul (by omega) (by omega)
    have h4 : a * ((res * mlo) * (res * mlo)) ≤ 2 ^ 32 * (2 ^ 24 * 2 ^ 24) :=
      Nat.mul_le_mul (by omega) h3
    have h5 : q * mlo ^ 2 ≤ 2 ^ 80 := by omega
    have h6 : q * mlo ^ 2 / 2 ^ 50 ≤ 2 ^ 30 := by omega
    omega
  · push_neg at hsmall
    have hqz : (q : ℤ) = (a : ℤ) * (res : ℤ) ^ 2 := by
      rw [hqdef]; push_cast; ring
    have hT2z : (res : ℤ) * m + 2 ^ 24 < (T : ℤ) * 2 ^ 25 + 2 ^ 25 := by
      exact_mod_cast hT2
    have hsz : (2 : ℤ) ^ 24 < (res : ℤ) * m := by exact_mod_cast hsmall
    have e1 : ((res : ℤ) * m - 2 ^ 24) ^ 2 ≤ ((2 : ℤ) ^ 25 * T) ^ 2 := by
      have h0 : (0 : ℤ) ≤ (res : ℤ) * m - 2 ^ 24 := by linarith
      have h5 : (res : ℤ) * m - 2 ^ 24 ≤ 2 ^ 25 * T := by linarith
      exact pow_le_pow_left h0 h5 2
    have e2 : (res : ℤ) ^ 2 * m ^ 2 - 2 ^ 25 * ((res : ℤ) * m)
        ≤ 2 ^ 50 * (T : ℤ) ^ 2 := by nlinarith [e1]
    have e3 : (a : ℤ) * ((res : ℤ) ^ 2 * m ^ 2)
        - 2 ^ 25 * ((a : ℤ) * ((res : ℤ) * m))
        ≤ 2 ^ 50 * ((a : ℤ) * (T : ℤ) ^ 2) := by
      have hmul := mul_le_mul_of_nonneg_left e2 (Int.natCast_nonneg a)
      nlinarith [hmul]
    have e4 : (a : ℤ) * ((res : ℤ) * m) ≤ 2 ^ 88 := by
      have h1 : (a : ℤ) * (res : ℤ) ≤ 2 ^ 62 := by exact_mod_cast hARle
      have h2 : (m : ℤ) ≤ 2 ^ 26 := by
        have : (m : ℤ) ≤ 50331648 := by exact_mod_cast hmub
        linarith
      have h3 : (0 : ℤ) ≤ (m : ℤ) := Int.natCast_nonneg _
      have h4 : (0 : ℤ) ≤ (a : ℤ) * (res : ℤ) := by positivity
      calc (a : ℤ) * ((res : ℤ) * m) = ((a : ℤ) * (res : ℤ)) * m := by ring
        _ ≤ 2 ^ 62 * 2 ^ 26 := mul_le_mul h1 h2 h3 (by norm_num)
        _ = 2 ^ 88 := by norm_num
    have e5 : ((q * mlo ^ 2 : Nat) : ℤ)
        ≤ (a : ℤ) * ((res : ℤ) ^ 2 * m ^ 2) := by
      push_cast
      rw [hqz]
      have h1 : (mlo : ℤ) ≤ m := by exact_mod_cast hmlom
      have h0 : (0 : ℤ) ≤ (mlo : ℤ) := Int.natCast_nonneg _
      have h2 : (mlo : ℤ) ^ 2 ≤ (m : ℤ) ^ 2 := pow_le_pow_left h0 h1 2
      have h3 := mul_le_mul_of_nonneg_left h2
        (mul_nonneg (Int.natCast_nonneg a) (sq_nonneg ((res : ℤ))))
      linarith [h3]
    have hNfin : q * mlo ^ 2 ≤ 2 ^ 50 * (a * T ^ 2) + 2 ^ 113 := by
      have hZ : ((q * mlo ^ 2 : Nat) : ℤ)
          ≤ 2 ^ 50 * ((a : ℤ) * (T : ℤ) ^ 2) + 2 ^ 113 := by
        linarith [e3, e4, e5]
      exact_mod_cast hZ
    have hgoal : q * mlo ^ 2 / 2 ^ 50 ≤ a * T ^ 2 + 2 ^ 63 := by
      rw [Nat.div_le_iff_le_mul_add_pred (show 0 < 2 ^ 50 by norm_num)]
      have : (a * T ^ 2 + 2 ^ 63) * 2 ^ 50 = 2 ^ 50 * (a * T ^ 2) + 2 ^ 113 := by
        ring
      omega
    omega

theorem qcap_cubic (q : Nat) (hq : q ≤ 5 * 2 ^ 89) :
    q * (fix32_1p5 - hdnQ q) ^ 2 ≤ 4 * (2 ^ 24 + 1) ^ 3 * 2 ^ 66 := by
  have hC : fix32_1p5 = 50331648 := by decide
  set F := q / 2 ^ 66 with hFdef
  have hF : F ≤ 5 * 2 ^ 23 := by omega
  have hu : q ≤ (F + 1) * 2 ^ 66 := by omega
  have hm : fix32_1p5 - hdnQ q ≤ 3 * 2 ^ 24 + 3 - (F + 1) := by
    have h1 : F ≤ hdnQ q + 2 := by
      unfold hdnQ
      omega
    omega
  have hstep : q * (fix32_1p5 - hdnQ q) ^ 2
      ≤ ((F + 1) * 2 ^ 66) * (3 * 2 ^ 24 + 3 - (F + 1)) ^ 2 :=
    Nat.mul_le_mul hu (Nat.pow_le_pow_left hm 2)
  have hcube : (F + 1) * (3 * 2 ^ 24 + 3 - (F + 1)) ^ 2
      ≤ 4 * (2 ^ 24 + 1) ^ 3 := by
    have hle : F + 1 ≤ 3 * 2 ^ 24 + 3 := by omega
    zify [hle]
    have hid : (4 * (3 * (2 ^ 24 + 1) : ℤ) ^ 3
        - 27 * ((F : ℤ) + 1) * ((3 * 2 ^ 24 + 3 : ℤ) - ((F : ℤ) + 1)) ^ 2)
        = ((3 * 2 ^ 24 + 3 : ℤ) - 3 * ((F : ℤ) + 1)) ^ 2
          * (4 * (3 * 2 ^ 24 + 3 : ℤ) - 3 * ((F : ℤ) + 1)) := by
      ring
    have hFz : (F : ℤ) ≤ 5 * 2 ^ 23 := by exact_mod_cast hF
    have hpos : (0 : ℤ) ≤ ((3 * 2 ^ 24 + 3 : ℤ) - 3 * ((F : ℤ) + 1)) ^ 2
        * (4 * (3 * 2 ^ 24 + 3 : ℤ) - 3 * ((F : ℤ) + 1)) :=
      mul_nonneg (sq_nonneg _) (by linarith)
    nlinarith [hid, hpos]
  calc q * (fix32_1p5 - hdnQ q) ^ 2
      ≤ ((F + 1) * 2 ^ 66) * (3 * 2 ^ 24 + 3 - (F + 1)) ^ 2 := hstep
    _ = ((F + 1) * (3 * 2 ^ 24 + 3 - (F + 1)) ^ 2) * 2 ^ 66 := by ring
    _ ≤ (4 * (2 ^ 24 + 1) ^ 3) * 2 ^ 66 := Nat.mul_le_mul_right _ hcube
    _ = 4 * (2 ^ 24 + 1) ^ 3 * 2 ^ 66 := by ring

theorem newton_q_upper (a res : Nat) (ha : a < 2 ^ 32)
    (hres : res ≤ 2 ^ 31) (hq : a * res ^ 2 ≤ 5 * 2 ^ 89) :
    a * newtonStep a res ^ 2 ≤ CAPQ := by
  have hC : fix32_1p5 = 50331648 := by decide
  have hh := half_le_of_q a res ha hq
  have hhd := hdnQ_le_half a res ha
  have hARle := ares_le a res ha hq
  have hNS := newtonStep_eq a res ha hres hq
  set T := newtonStep a res with hTdef
  set h := half_a_res_squN a res with hhdef
  set m := fix32_1p5 - h with hmdef
  have hmub : m ≤ 50331648 := by omega
  have hT1 : T * 2 ^ 25 ≤ res * m + 2 ^ 24 := by
    rw [hNS]
    exact Nat.div_mul_le_self _ _
  set q := a * res ^ 2 with hqdef
  set mhi := fix32_1p5 - hdnQ q with hmhidef
  have hmhi : m ≤ mhi := by omega
  have hqz : (q : ℤ) = (a : ℤ) * (res : ℤ) ^ 2 := by
    rw [hqdef]; push_cast; ring
  have hT1z : (T : ℤ) * 2 ^ 25 ≤ (res : ℤ) * m + 2 ^ 24 := by exact_mod_cast hT1
  have e1 : ((2 : ℤ) ^ 25 * T) ^ 2 ≤ ((res : ℤ) * m + 2 ^ 24) ^ 2 := by
    have h0 : (0 : ℤ) ≤ (2 : ℤ) ^ 25 * T :=
      mul_nonneg (by norm_num) (Int.natCast_nonneg _)
    exact pow_le_pow_left h0 (by linarith) 2
  have e2 : 2 ^ 50 * (T : ℤ) ^ 2
      ≤ (res : ℤ) ^ 2 * m ^ 2 + 2 ^ 25 * ((res : ℤ) * m) + 2 ^ 48 := by
    nlinarith [e1]
  have e3 : 2 ^ 50 * ((a : ℤ) * (T : ℤ) ^ 2)
      ≤ (a : ℤ) * ((res : ℤ) ^ 2 * m ^ 2)
        + 2 ^ 25 * ((a : ℤ) * ((res : ℤ) * m)) + (a : ℤ) * 2 ^ 48 := by
    have hmul := mul_le_mul_of_nonneg_left e2 (Int.natCast_nonneg a)
    nlinarith [hmul]
  have e4 : (a : ℤ) * ((res : ℤ) * m) ≤ 2 ^ 88 := by
    have h1 : (a : ℤ) * (res : ℤ) ≤ 2 ^ 62 := by exact_mod_cast hARle
    have h2 : (m : ℤ) ≤ 2 ^ 26 := by
      have : (m : ℤ) ≤ 50331648 := by exact_mod_cast hmub
      linarith
    have h3 : (0 : ℤ) ≤ (m : ℤ) := Int.natCast_nonneg _
    calc (a : ℤ) * ((res : ℤ) * m) = ((a : ℤ) * (res : ℤ)) * m := by ring
      _ ≤ 2 ^ 62 * 2 ^ 26 := mul_le_mul h1 h2 h3 (by norm_num)
      _ = 2 ^ 88 := by norm_num
  have e5 : (a : ℤ) * ((res : ℤ) ^ 2 * m ^ 2) ≤ ((q * mhi ^ 2 : Nat) : ℤ) := by
    push_cast
    rw [hqz]
    have h1 : (m : ℤ) ≤ mhi := by exact_mod_cast hmhi
    have h0 : (0 : ℤ) ≤ (m : ℤ) := Int.natCast_nonneg _
    have h2 : (m : ℤ) ^ 2 ≤ (mhi : ℤ) ^ 2 := pow_le_pow_left h0 h1 2
    have h3 := mul_le_mul_of_nonneg_left h2
      (mul_nonneg (Int.natCast_nonneg a) (sq_nonneg ((res : ℤ))))
    linarith [h3]
  have e6 : q * mhi ^ 2 ≤ 4 * (2 ^ 24 + 1) ^ 3 * 2 ^ 66 := qcap_cubic q hq
  have e6z : ((q * mhi ^ 2 : Nat) : ℤ) ≤ 4 * (2 ^ 24 + 1) ^ 3 * 2 ^ 66 := by
    exact_mod_cast e6
  have e7 : (a : ℤ) * 2 ^ 48 ≤ 2 ^ 80 := by
    have : (a : ℤ) ≤ 2 ^ 32 := by exact_mod_cast ha.le
    linarith
  have hfin : 2 ^ 50 * ((a : ℤ) * (T : ℤ) ^ 2)
      ≤ 4 * (2 ^ 24 + 1) ^ 3 * 2 ^ 66 + 2 ^ 113 + 2 ^ 80 := by
    linarith [e3, e4, e5, e6z, e7]
  have hfinN : 2 ^ 50 * (a * T ^ 2) ≤ 4 * (2 ^ 24 + 1) ^ 3 * 2 ^ 66 + 2 ^ 113 + 2 ^ 80 := by
    exact_mod_cast hfin
  have : a * T ^ 2 ≤ (4 * (2 ^ 24 + 1) ^ 3 * 2 ^ 66 + 2 ^ 113 + 2 ^ 80) / 2 ^ 50 := by
    rw [Nat.le_div_iff_mul_le (show 0 < 2 ^ 50 by norm_num)]
    omega
  unfold CAPQ
  have hnum : (4 * (2 ^ 24 + 1) ^ 3 * 2 ^ 66 + 2 ^ 113 + 2 ^ 80) / 2 ^ 50
      ≤ 2 ^ 90 + 2 ^ 68 := by decide
  omega

/-! Quasi-concavity of the per-step lower bound: `qstepLo` is built from
`psi(t) = t * (K - t)^2` with `K = 3 * 2^90 - 3 * 2^64`, which lies above
its chords on `[0, 3 * 2^89]`; hence on an interval the minimum of
`qstepLo` at the two endpoints bounds `qstepLo` at any interior point up
to the fixed slack `EQchord`.  `qstepLo_facts` brackets the integer
computation between `psi` and `psi + 2^250`. -/

theorem qstepLo_facts (t : Nat) (hb : t ≤ 3 * 2 ^ 89) :
    (t : ℤ) * ((3 * 2 ^ 90 - 3 * 2 ^ 64 : ℤ) - t) ^ 2
      ≤ 2 ^ 132 * ((t * (fix32_1p5 - hupQ t) ^ 2 : Nat) : ℤ)
    ∧ 2 ^ 132 * ((t * (fix32_1p5 - hupQ t) ^ 2 : Nat) : ℤ)
      ≤ (t : ℤ) * ((3 * 2 ^ 90 - 3 * 2 ^ 64 : ℤ) - t) ^ 2 + 2 ^ 250 := by
  have hC : fix32_1p5 = 50331648 := by decide
  have hup1 : 2 ^ 66 * hupQ t ≤ t + 3 * 2 ^ 64 := by
    unfold hupQ
    omega
  have hup2 : t + 3 * 2 ^ 64 < 2 ^ 66 * hupQ t + 2 ^ 66 := by
    unfold hupQ
    omega
  have hupb : hupQ t ≤ 25165825 := by
    unfold hupQ
    omega
  set m := fix32_1p5 - hupQ t with hm
  have hsum : m + hupQ t = 50331648 := by omega
  have hsumz : (m : ℤ) + (hupQ t : ℤ) = 50331648 := by exact_mod_cast hsum
  have hup1z : 2 ^ 66 * ((hupQ t : ℤ)) ≤ (t : ℤ) + 3 * 2 ^ 64 := by
    exact_mod_cast hup1
  have hup2z : (t : ℤ) + 3 * 2 ^ 64 < 2 ^ 66 * ((hupQ t : ℤ)) + 2 ^ 66 := by
    exact_mod_cast hup2
  have htz : (t : ℤ) ≤ 3 * 2 ^ 89 := by exact_mod_cast hb
  have htz0 : (0 : ℤ) ≤ (t : ℤ) := Int.natCast_nonneg _
  have hmz0 : (0 : ℤ) ≤ (m : ℤ) := Int.natCast_nonneg _
  have hcast : ((t * m ^ 2 : Nat) : ℤ) = (t : ℤ) * (m : ℤ) ^ 2 := by push_cast; ring
  rw [hcast]
  set G : ℤ := (3 * 2 ^ 90 - 3 * 2 ^ 64 : ℤ) - t with hG
  have hG1 : G ≤ 2 ^ 66 * (m : ℤ) := by
    have : 2 ^ 66 * ((m : ℤ) + (hupQ t : ℤ)) = 2 ^ 66 * 50331648 := by
      rw [hsumz]
    linarith [this, hup1z]
  have hG2 : 2 ^ 66 * (m : ℤ) < G + 2 ^ 66 := by
    have : 2 ^ 66 * ((m : ℤ) + (hupQ t : ℤ)) = 2 ^ 66 * 50331648 := by
      rw [hsumz]
    linarith [this, hup2z]
  have hG0 : 0 ≤ G := by rw [hG]; linarith
  constructor
  · -- lower: t*G^2 ≤ 2^132 * (t*m^2) = t*(2^66 m)^2
    have h1 : G ^ 2 ≤ (2 ^ 66 * (m : ℤ)) ^ 2 := pow_le_pow_left hG0 hG1 2
    have h2 := mul_le_mul_of_nonneg_left h1 htz0
    have he1 : 2 ^ 132 * ((t : ℤ) * (m : ℤ) ^ 2)
        = (t : ℤ) * (2 ^ 66 * (m : ℤ)) ^ 2 := by ring
    linarith [h2, he1]
  · -- upper: t*(2^66 m)^2 ≤ t*(G + 2^66)^2 ≤ t*G^2 + 2^250
    have h1 : (2 ^ 66 * (m : ℤ)) ^ 2 ≤ (G + 2 ^ 66) ^ 2 :=
      pow_le_pow_left (by positivity) (by linarith) 2
    have h2 := mul_le_mul_of_nonneg_left h1 htz0
    have hGub : G ≤ 3 * 2 ^ 90 := by rw [hG]; linarith
    have h3 : (t : ℤ) * (2 * G * 2 ^ 66 + 2 ^ 132)
        ≤ 3 * 2 ^ 89 * (2 * (3 * 2 ^ 90) * 2 ^ 66 + 2 ^ 132) := by
      apply mul_le_mul htz (by linarith) (by linarith) (by norm_num)
    have he1 : 2 ^ 132 * ((t : ℤ) * (m : ℤ) ^ 2)
        = (t : ℤ) * (2 ^ 66 * (m : ℤ)) ^ 2 := by ring
    have he2 : (t : ℤ) * (G + 2 ^ 66) ^ 2
        = (t : ℤ) * G ^ 2 + (t : ℤ) * (2 * G * 2 ^ 66 + 2 ^ 132) := by ring
    have he3 : (3 * 2 ^ 89 * (2 * (3 * 2 ^ 90) * 2 ^ 66 + 2 ^ 132) : ℤ)
        ≤ 2 ^ 250 := by norm_num
    linarith [h2, h3, he1, he2, he3]

theorem qstepLo_chord (x q1 q2 : Nat) (hx1 : q1 ≤ x) (hx2 : x ≤ q2)
    (hb : q2 ≤ 3 * 2 ^ 89) :
    min (qstepLo q1) (qstepLo q2) ≤ qstepLo x + EQchord := by
  rcases Nat.eq_or_lt_of_le (le_trans hx1 hx2) with heq | hlt
  · have hxq : x = q1 := by omega
    have hq : q2 = q1 := heq.symm
    subst hxq
    subst hq
    simp only [min_self]
    exact Nat.le_add_right _ _
  · obtain ⟨hA1, hB1⟩ := qstepLo_facts q1 (by omega)
    obtain ⟨hA2, hB2⟩ := qstepLo_facts q2 hb
    obtain ⟨hAx, hBx⟩ := qstepLo_facts x (by omega)
    obtain ⟨P1, hP1⟩ : ∃ P, q1 * (fix32_1p5 - hupQ q1) ^ 2 = P := ⟨_, rfl⟩
    obtain ⟨P2, hP2⟩ : ∃ P, q2 * (fix32_1p5 - hupQ q2) ^ 2 = P := ⟨_, rfl⟩
    obtain ⟨Px, hPx⟩ : ∃ P, x * (fix32_1p5 - hupQ x) ^ 2 = P := ⟨_, rfl⟩
    rw [hP1] at hA1 hB1
    rw [hP2] at hA2 hB2
    rw [hPx] at hAx hBx
    have hq1 : qstepLo q1 = P1 / 2 ^ 50 - 2 ^ 64 := by
      unfold qstepLo
      rw [hP1]
    have hq2 : qstepLo q2 = P2 / 2 ^ 50 - 2 ^ 64 := by
      unfold qstepLo
      rw [hP2]
    have hqx : qstepLo x = Px / 2 ^ 50 - 2 ^ 64 := by
      unfold qstepLo
      rw [hPx]
    by_cases hz1 : qstepLo q1 = 0
    · calc min (qstepLo q1) (qstepLo q2) ≤ qstepLo q1 := min_le_left _ _
        _ ≤ qstepLo x + EQchord := by rw [hz1]; exact Nat.zero_le _
    by_cases hz2 : qstepLo q2 = 0
    · calc min (qstepLo q1) (qstepLo q2) ≤ qstepLo q2 := min_le_right _ _
        _ ≤ qstepLo x + EQchord := by rw [hz2]; exact Nat.zero_le _
    have hu1 : 2 ^ 50 * (qstepLo q1 + 2 ^ 64) ≤ P1 := by omega
    have hu2 : 2 ^ 50 * (qstepLo q2 + 2 ^ 64) ≤ P2 := by omega
    have hdx : Px < 2 ^ 50 * (qstepLo x + 2 ^ 64 + 1) := by omega
    set μ := min (qstepLo q1) (qstepLo q2) with hμdef
    have hμ1 : μ ≤ qstepLo q1 := min_le_left _ _
    have hμ2 : μ ≤ qstepLo q2 := min_le_right _ _
    -- move to ℤ
    have hu1z : 2 ^ 50 * ((qstepLo q1 : ℤ) + 2 ^ 64) ≤ (P1 : ℤ) := by
      exact_mod_cast hu1
    have hu2z : 2 ^ 50 * ((qstepLo q2 : ℤ) + 2 ^ 64) ≤ (P2 : ℤ) := by
      exact_mod_cast hu2
    have hdxz : (Px : ℤ) < 2 ^ 50 * ((qstepLo x : ℤ) + 2 ^ 64 + 1) := by
      exact_mod_cast hdx
    have hμ1z : (μ : ℤ) ≤ (qstepLo q1 : ℤ) := by exact_mod_cast hμ1
    have hμ2z : (μ : ℤ) ≤ (qstepLo q2 : ℤ) := by exact_mod_cast hμ2
    have hψ1 : 2 ^ 182 * ((μ : ℤ) + 2 ^ 64) - 2 ^ 250
        ≤ (q1 : ℤ) * ((3 * 2 ^ 90 - 3 * 2 ^ 64 : ℤ) - q1) ^ 2 := by
      linarith [hB1, hu1z, hμ1z]
    have hψ2 : 2 ^ 182 * ((μ : ℤ) + 2 ^ 64) - 2 ^ 250
        ≤ (q2 : ℤ) * ((3 * 2 ^ 90 - 3 * 2 ^ 64 : ℤ) - q2) ^ 2 := by
      linarith [hB2, hu2z, hμ2z]
    have hs1 : (0 : ℤ) ≤ (x : ℤ) - q1 := by
      have : (q1 : ℤ) ≤ (x : ℤ) := by exact_mod_cast hx1
      linarith
    have hs2 : (0 : ℤ) ≤ (q2 : ℤ) - x := by
      have : (x : ℤ) ≤ (q2 : ℤ) := by exact_mod_cast hx2
      linarith
    have hs3 : (0 : ℤ) < (q2 : ℤ) - q1 := by
      have : (q1 : ℤ) < (q2 : ℤ) := by exact_mod_cast hlt
      linarith
    have hs4 : (0 : ℤ) ≤ 2 * (3 * 2 ^ 90 - 3 * 2 ^ 64 : ℤ)
        - ((x : ℤ) + q1 + q2) := by
      have hxb : (x : ℤ) ≤ 3 * 2 ^ 89 := by
        have : x ≤ 3 * 2 ^ 89 := by omega
        exact_mod_cast this
      have hq1b : (q1 : ℤ) ≤ 3 * 2 ^ 89 := by
        have : q1 ≤ 3 * 2 ^ 89 := by omega
        exact_mod_cast this
      have hq2b : (q2 : ℤ) ≤ 3 * 2 ^ 89 := by exact_mod_cast hb
      linarith
    have hid : (x : ℤ) * ((3 * 2 ^ 90 - 3 * 2 ^ 64 : ℤ) - x) ^ 2
          * ((q2 : ℤ) - q1)
        - (q1 : ℤ) * ((3 * 2 ^ 90 - 3 * 2 ^ 64 : ℤ) - q1) ^ 2
          * ((q2 : ℤ) - x)
        - (q2 : ℤ) * ((3 * 2 ^ 90 - 3 * 2 ^ 64 : ℤ) - q2) ^ 2
          * ((x : ℤ) - q1)
        = ((x : ℤ) - q1) * ((q2 : ℤ) - x) * ((q2 : ℤ) - q1)
          * (2 * (3 * 2 ^ 90 - 3 * 2 ^ 64 : ℤ) - ((x : ℤ) + q1 + q2)) := by
      ring
    have hdef : (0 : ℤ) ≤ ((x : ℤ) - q1) * ((q2 : ℤ) - x) * ((q2 : ℤ) - q1)
        * (2 * (3 * 2 ^ 90 - 3 * 2 ^ 64 : ℤ) - ((x : ℤ) + q1 + q2)) := by
      apply mul_nonneg
      apply mul_nonneg
      apply mul_nonneg hs1 hs2
      · linarith
      · exact hs4
    have hc1 := mul_le_mul_of_nonneg_right hψ1 hs2
    have hc2 := mul_le_mul_of_nonneg_right hψ2 hs1
    have hLsplit : (2 ^ 182 * ((μ : ℤ) + 2 ^ 64) - 2 ^ 250) * ((q2 : ℤ) - x)
        + (2 ^ 182 * ((μ : ℤ) + 2 ^ 64) - 2 ^ 250) * ((x : ℤ) - q1)
        = (2 ^ 182 * ((μ : ℤ) + 2 ^ 64) - 2 ^ 250) * ((q2 : ℤ) - q1) := by
      ring
    have hmain : (2 ^ 182 * ((μ : ℤ) + 2 ^ 64) - 2 ^ 250) * ((q2 : ℤ) - q1)
        ≤ (x : ℤ) * ((3 * 2 ^ 90 - 3 * 2 ^ 64 : ℤ) - x) ^ 2
          * ((q2 : ℤ) - q1) := by
      linarith [hid, hdef, hc1, hc2, hLsplit]
    have hcancel : 2 ^ 182 * ((μ : ℤ) + 2 ^ 64) - 2 ^ 250
        ≤ (x : ℤ) * ((3 * 2 ^ 90 - 3 * 2 ^ 64 : ℤ) - x) ^ 2 :=
      le_of_mul_le_mul_right hmain hs3
    have hfin : (μ : ℤ) ≤ (qstepLo x : ℤ) + 2 ^ 69 := by
      linarith [hcancel, hAx, hdxz]
    have hfinN : μ ≤ qstepLo x + 2 ^ 69 := by exact_mod_cast hfin
    exact le_trans hfinN (by rw [EQchord])



/-! Soundness of a passing `checkBox`: every mantissa in the box satisfies
the squared relative-error bound `|a * res^2 / 2^90 - 1| < 1/10^4`
(expressed multiplicatively over `Nat`). -/

theorem checkBox_sound {alo ahi : Nat} (h30 : 2 ^ 30 ≤ alo) (h32 : ahi < 2 ^ 32)
    (hc : checkBox alo ahi = true) :
    ∀ a, alo ≤ a → a ≤ ahi →
      (10 ^ 4 - 1) ^ 2 * 2 ^ 90 < a * invsqrt_mant a ^ 2 * 10 ^ 8
      ∧ a * invsqrt_mant a ^ 2 * 10 ^ 8 < (10 ^ 4 + 1) ^ 2 * 2 ^ 90 := by
  intro a ha1 ha2
  simp only [checkBox, Bool.and_eq_true, decide_eq_true_eq] at hc
  obtain ⟨⟨hnu, hnw⟩, hq3, hthr⟩ := hc
  have ha32 : a < 2 ^ 32 := by omega
  have ha30 : 2 ^ 30 ≤ a := by omega
  obtain ⟨hrlo, hrhi⟩ := invsqrt_poly_bounds ha1 ha2 h32 hnu hnw
  set rlo := (frac_185_108 + fix32_t19 alo - fix32_t137 ahi - fix32_t11 ahi)
    <<< 3 with hrlodef
  set rhi := (frac_185_108 + fix32_t19 ahi - fix32_t137 alo - fix32_t11 alo)
    <<< 3 with hrhidef
  set r0 := invsqrt_poly a with hr0def
  set qlo := alo * rlo ^ 2 with hqlodef
  set qhi := ahi * rhi ^ 2 with hqhidef
  set q0 := a * r0 ^ 2 with hq0def
  have hq0lo : qlo ≤ q0 := Nat.mul_le_mul ha1 (Nat.pow_le_pow_left hrlo 2)
  have hq0hi : q0 ≤ qhi := Nat.mul_le_mul ha2 (Nat.pow_le_pow_left hrhi 2)
  have hq0cap : q0 ≤ 3 * 2 ^ 89 := le_trans hq0hi hq3
  have hr0b : r0 ≤ 2 ^ 31 := by
    by_contra hcon
    push_neg at hcon
    have h1 : (2 ^ 31 + 1) * (2 ^ 31 + 1) ≤ r0 * r0 :=
      Nat.mul_le_mul (by omega) (by omega)
    have h2 : 2 ^ 30 * (r0 * r0) ≤ a * (r0 * r0) :=
      Nat.mul_le_mul_right _ ha30
    have h3 : a * (r0 * r0) = q0 := by rw [hq0def]; ring
    omega
  set res1 := newtonStep a r0 with hres1def
  set q1 := a * res1 ^ 2 with hq1def
  have hlow1 : qstepLo q0 ≤ q1 := newton_q_lower a r0 ha32 hr0b (by omega)
  have hcap1 : q1 ≤ CAPQ := newton_q_upper a r0 ha32 hr0b (by omega)
  have hchord1 : min (qstepLo qlo) (qstepLo qhi) ≤ qstepLo q0 + EQchord :=
    qstepLo_chord q0 qlo qhi hq0lo hq0hi hq3
  have hCAP : CAPQ = 2 ^ 90 + 2 ^ 68 := rfl
  have hq1le : q1 ≤ 5 * 2 ^ 89 := by omega
  have hres1b : res1 ≤ 2 ^ 31 := by
    by_contra hcon
    push_neg at hcon
    have h1 : (2 ^ 31 + 1) * (2 ^ 31 + 1) ≤ res1 * res1 :=
      Nat.mul_le_mul (by omega) (by omega)
    have h2 : 2 ^ 30 * (res1 * res1) ≤ a * (res1 * res1) :=
      Nat.mul_le_mul_right _ ha30
    have h3 : a * (res1 * res1) = q1 := by rw [hq1def]; ring
    omega
  set res2 := newtonStep a res1 with hres2def
  set q2 := a * res2 ^ 2 with hq2def
  have hlow2 : qstepLo q1 ≤ q2 := newton_q_lower a res1 ha32 hres1b hq1le
  have hcap2 : q2 ≤ CAPQ := newton_q_upper a res1 ha32 hres1b hq1le
  set l1 := min (qstepLo qlo) (qstepLo qhi) - EQchord with hl1def
  have hl1q1 : l1 ≤ q1 := by
    rw [hl1def]
    exact Nat.sub_le_iff_le_add.mpr
      (le_trans hchord1 (Nat.add_le_add_right hlow1 _))
  have hCAPle : CAPQ ≤ 3 * 2 ^ 89 := by omega
  have hchord2 : min (qstepLo l1) (qstepLo CAPQ) ≤ qstepLo q1 + EQchord :=
    qstepLo_chord q1 l1 CAPQ hl1q1 hcap1 hCAPle
  have hq2low : qLower2 qlo qhi ≤ q2 := by
    unfold qLower2
    rw [← hl1def]
    exact Nat.sub_le_iff_le_add.mpr
      (le_trans hchord2 (Nat.add_le_add_right hlow2 _))
  have hmant : invsqrt_mant a = res2 := by
    rw [hres2def, hres1def, hr0def]
    rfl
  constructor
  · have h1 : qLower2 qlo qhi * 10 ^ 8 ≤ q2 * 10 ^ 8 :=
      Nat.mul_le_mul_right _ hq2low
    calc (10 ^ 4 - 1) ^ 2 * 2 ^ 90 < qLower2 qlo qhi * 10 ^ 8 := hthr
      _ ≤ q2 * 10 ^ 8 := h1
      _ = a * invsqrt_mant a ^ 2 * 10 ^ 8 := by rw [hmant, hq2def]
  · have h1 : q2 * 10 ^ 8 ≤ CAPQ * 10 ^ 8 := Nat.mul_le_mul_right _ hcap2
    have h2 : CAPQ * 10 ^ 8 < (10 ^ 4 + 1) ^ 2 * 2 ^ 90 := by decide
    calc a * invsqrt_mant a ^ 2 * 10 ^ 8 = q2 * 10 ^ 8 := by rw [hmant, hq2def]
      _ ≤ CAPQ * 10 ^ 8 := h1
      _ < (10 ^ 4 + 1) ^ 2 * 2 ^ 90 := h2

/-- Soundness of the adaptive bisection sweep. -/
theorem checkRange_sound : ∀ fuel alo ahi, 2 ^ 30 ≤ alo → ahi < 2 ^ 32 →
    checkRange alo ahi fuel = true →
    ∀ a, alo ≤ a → a ≤ ahi →
      (10 ^ 4 - 1) ^ 2 * 2 ^ 90 < a * invsqrt_mant a ^ 2 * 10 ^ 8
      ∧ a * invsqrt_mant a ^ 2 * 10 ^ 8 < (10 ^ 4 + 1) ^ 2 * 2 ^ 90 := by
  intro fuel
  induction fuel with
  | zero =>
    intro alo ahi h30 h32 hc a ha1 ha2
    simp only [checkRange] at hc
    exact checkBox_sound h30 h32 hc a ha1 ha2
  | succ n ih =>
    intro alo ahi h30 h32 hc a ha1 ha2
    simp only [checkRange, Bool.or_eq_true, Bool.and_eq_true] at hc
    rcases hc with hbox | ⟨hL, hR⟩
    · exact checkBox_sound h30 h32 hbox a ha1 ha2
    · by_cases hmid : a ≤ (alo + ahi) / 2
      · exact ih alo ((alo + ahi) / 2) h30 (by omega) hL a ha1 hmid
      · exact ih ((alo + ahi) / 2 + 1) ahi (by omega) h32 hR a (by omega) ha2

/-! ## C1: end-to-end relative error of `fix32_invsqrt`

The certified sweep, its numerical instantiation over the whole mantissa
range, and the assembly into a statement about real numbers. -/

/-- The whole mantissa range `[2^30, 2^32)` passes the certified check
(kernel-evaluated adaptive bisection, about 1500 leaf boxes). -/
theorem sweep_certificate : checkRange (2 ^ 30) (2 ^ 32 - 1) 40 = true := by
  decide

/-- Relative-error window for the mantissa computation: for every
normalised mantissa `a`, `a * res^2` is within `(1 ± 10^-4)^2 * 2^90`. -/
theorem invsqrt_mant_error (a : Nat) (h1 : 2 ^ 30 ≤ a) (h2 : a < 2 ^ 32) :
    (10 ^ 4 - 1) ^ 2 * 2 ^ 90 < a * invsqrt_mant a ^ 2 * 10 ^ 8
    ∧ a * invsqrt_mant a ^ 2 * 10 ^ 8 < (10 ^ 4 + 1) ^ 2 * 2 ^ 90 :=
  checkRange_sound 40 (2 ^ 30) (2 ^ 32 - 1) (le_refl _) (by omega)
    sweep_certificate a h1 (by omega)

/-- From the integer window to the real bound: if `a = v1 * 2^(30-msb)`
with the exponent identity `2n = msb - s1`, the relative error of
`r * 2^-(30+n)` against `1/sqrt(v1 * 2^-s1)` is below `10^-4`. -/
theorem real_error_assembly (a r v1 : Nat) (s1 n : ℤ) (msb : Nat)
    (hmsb30 : msb ≤ 30)
    (hveq : a = v1 * 2 ^ (30 - msb))
    (h2n : 2 * n = (msb : ℤ) - s1)
    (hlow : (10 ^ 4 - 1) ^ 2 * 2 ^ 90 < a * r ^ 2 * 10 ^ 8)
    (hhigh : a * r ^ 2 * 10 ^ 8 < (10 ^ 4 + 1) ^ 2 * 2 ^ 90) :
    |(r : ℝ) * (2 : ℝ) ^ (-(30 + n))
        * Real.sqrt ((v1 : ℝ) * (2 : ℝ) ^ (-s1)) - 1|
      < 1 / 10 ^ 4 := by
  have h2Z : (2 : ℝ) ≠ 0 := by norm_num
  have hA0 : (0 : ℝ) < (a : ℝ) := by
    have : 1 ≤ a := by
      by_contra hcon
      push_neg at hcon
      interval_cases a <;> omega
    exact_mod_cast this
  have hR0 : (0 : ℝ) ≤ (r : ℝ) := Nat.cast_nonneg _
  -- cast the Nat window to ℝ
  have hlowR : (9999 : ℝ) ^ 2 * 2 ^ 90 < (a : ℝ) * (r : ℝ) ^ 2 * 10 ^ 8 := by
    have hn : (9999 : ℕ) ^ 2 * 2 ^ 90 < a * r ^ 2 * 10 ^ 8 := by
      rw [show (9999 : ℕ) ^ 2 * 2 ^ 90 = ((10 : ℕ) ^ 4 - 1) ^ 2 * 2 ^ 90
        from by norm_num]
      exact hlow
    exact_mod_cast hn
  have hhighR : (a : ℝ) * (r : ℝ) ^ 2 * 10 ^ 8 < (10001 : ℝ) ^ 2 * 2 ^ 90 := by
    have hn : a * r ^ 2 * 10 ^ 8 < (10001 : ℕ) ^ 2 * 2 ^ 90 := by
      rw [show (10001 : ℕ) ^ 2 * 2 ^ 90 = ((10 : ℕ) ^ 4 + 1) ^ 2 * 2 ^ 90
        from by norm_num]
      exact hhigh
    exact_mod_cast hn
  -- the sqrt argument: v1 * 2^(-s1) = a * (x * x) with x = 2^(n - 15)
  have h1 : (a : ℝ) = (v1 : ℝ) * (2 : ℝ) ^ ((30 - msb : ℕ) : ℤ) := by
    rw [hveq]
    push_cast
    rw [zpow_natCast]
  have h2 : ((30 - msb : ℕ) : ℤ) = 30 - (msb : ℤ) := by omega
  have hv1 : (v1 : ℝ) = (a : ℝ) * (2 : ℝ) ^ ((msb : ℤ) - 30) := by
    rw [h1, h2, mul_assoc, ← zpow_add₀ h2Z]
    norm_num
  have hVs : (v1 : ℝ) * (2 : ℝ) ^ (-s1)
      = (a : ℝ) * ((2 : ℝ) ^ (n - 15) * (2 : ℝ) ^ (n - 15)) := by
    rw [hv1, mul_assoc, ← zpow_add₀ h2Z,
      show (msb : ℤ) - 30 + -s1 = n - 15 + (n - 15) from by omega,
      zpow_add₀ h2Z]
  have hx0 : (0 : ℝ) ≤ (2 : ℝ) ^ (n - 15) := le_of_lt (zpow_pos (by norm_num) _)
  have hsqrt : Real.sqrt ((v1 : ℝ) * (2 : ℝ) ^ (-s1))
      = Real.sqrt (a : ℝ) * (2 : ℝ) ^ (n - 15) := by
    rw [hVs, Real.sqrt_mul (le_of_lt hA0), Real.sqrt_mul_self hx0]
  rw [hsqrt]
  have hcomb : (r : ℝ) * (2 : ℝ) ^ (-(30 + n))
      * (Real.sqrt (a : ℝ) * (2 : ℝ) ^ (n - 15))
      = (r : ℝ) * Real.sqrt (a : ℝ) * ((2 : ℝ) ^ (45 : ℕ))⁻¹ := by
    have he : (2 : ℝ) ^ (-(30 + n)) * (2 : ℝ) ^ (n - 15)
        = ((2 : ℝ) ^ (45 : ℕ))⁻¹ := by
      rw [← zpow_add₀ h2Z]
      rw [show (-(30 + n) + (n - 15)) = -(45 : ℤ) by ring]
      rw [zpow_neg]
      norm_num
    calc (r : ℝ) * (2 : ℝ) ^ (-(30 + n))
        * (Real.sqrt (a : ℝ) * (2 : ℝ) ^ (n - 15))
        = (r : ℝ) * Real.sqrt (a : ℝ)
          * ((2 : ℝ) ^ (-(30 + n)) * (2 : ℝ) ^ (n - 15)) := by ring
      _ = (r : ℝ) * Real.sqrt (a : ℝ) * ((2 : ℝ) ^ (45 : ℕ))⁻¹ := by rw [he]
  rw [hcomb]
  set y := (r : ℝ) * Real.sqrt (a : ℝ) * ((2 : ℝ) ^ (45 : ℕ))⁻¹ with hy
  have hy0 : 0 ≤ y := by
    apply mul_nonneg
    apply mul_nonneg hR0 (Real.sqrt_nonneg _)
    positivity
  have hysq : y ^ 2 = (a : ℝ) * (r : ℝ) ^ 2 / 2 ^ 90 := by
    rw [hy]
    rw [mul_pow, mul_pow, Real.sq_sqrt (le_of_lt hA0)]
    rw [show (((2 : ℝ) ^ (45 : ℕ))⁻¹) ^ 2 = ((2 : ℝ) ^ (90 : ℕ))⁻¹ by
      rw [inv_pow, ← pow_mul]]
    ring
  have hylow : (9999 : ℝ) / 10 ^ 4 < y := by
    have hsq : ((9999 : ℝ) / 10 ^ 4) ^ 2 < y ^ 2 := by
      rw [hysq, div_pow, div_lt_div_iff (by norm_num) (by norm_num)]
      linarith [hlowR]
    exact lt_of_pow_lt_pow_left 2 hy0 hsq
  have hyhigh : y < (10001 : ℝ) / 10 ^ 4 := by
    have hsq : y ^ 2 < ((10001 : ℝ) / 10 ^ 4) ^ 2 := by
      rw [hysq, div_pow, div_lt_div_iff (by norm_num) (by norm_num)]
      linarith [hhighR]
    exact lt_of_pow_lt_pow_left 2 (by norm_num) hsq
  rw [abs_lt]
  constructor <;> [linarith; linarith]

/-- The parity-corrected value is always a 32-bit value. -/
theorem invsqrt_parity_fst_lt (val : Nat) (scale : Int) :
    (invsqrt_parity val scale).1 < 2 ^ 32 := by
  unfold invsqrt_parity
  dsimp only
  rw [Nat.shiftRight_eq_div_pow]
  exact lt_of_le_of_lt (Nat.div_le_self _ _)
    (Nat.mod_lt _ (by norm_num))

/-- The parity-corrected scale is always even. -/
theorem invsqrt_parity_snd_even (val : Nat) (scale : Int) :
    (2 : ℤ) ∣ (invsqrt_parity val scale).2 := by
  unfold invsqrt_parity
  dsimp only
  omega

/-- The mantissa normalisation `a = val << (30 - msb_even)` does not wrap
and lands in `[2^30, 2^32)`. -/
theorem mantissa_eq (v : Nat) (h1 : 1 ≤ v) (h2 : v < 2 ^ 32) :
    (v <<< (30 - msbEven v)) % 2 ^ 32 = v * 2 ^ (30 - msbEven v)
    ∧ 2 ^ 30 ≤ v * 2 ^ (30 - msbEven v)
    ∧ v * 2 ^ (30 - msbEven v) < 2 ^ 32 ∧ msbEven v ≤ 30 := by
  have hm := msbEven_log2_char v h1 h2
  have hlb : 2 ^ Nat.log2 v ≤ v := Nat.log2_self_le (by omega)
  have hub : v < 2 ^ (Nat.log2 v + 1) := Nat.lt_log2_self
  obtain ⟨k, hk⟩ : ∃ k, Nat.log2 v = k := ⟨_, rfl⟩
  rw [hk] at hm hlb hub
  have hk32 : k < 32 := by
    by_contra hcon
    push_neg at hcon
    have : (2 : Nat) ^ 32 ≤ 2 ^ k := Nat.pow_le_pow_right (by norm_num) hcon
    omega
  have hmsb : msbEven v ≤ 30 := by omega
  have hlow : 2 ^ 30 ≤ v * 2 ^ (30 - msbEven v) := by
    have h3 : 2 ^ msbEven v ≤ v :=
      le_trans (Nat.pow_le_pow_right (by norm_num) (by omega)) hlb
    calc (2 : Nat) ^ 30 = 2 ^ msbEven v * 2 ^ (30 - msbEven v) := by
          rw [← pow_add]
          congr 1
          omega
      _ ≤ v * 2 ^ (30 - msbEven v) := Nat.mul_le_mul_right _ h3
  have hhigh : v * 2 ^ (30 - msbEven v) < 2 ^ 32 := by
    have h3 : v < 2 ^ (msbEven v + 2) :=
      lt_of_lt_of_le hub (Nat.pow_le_pow_right (by norm_num) (by omega))
    calc v * 2 ^ (30 - msbEven v)
        < 2 ^ (msbEven v + 2) * 2 ^ (30 - msbEven v) :=
          Nat.mul_lt_mul_of_pos_right h3 (by positivity)
      _ = 2 ^ 32 := by
          rw [← pow_add]
          congr 1
          omega
  refine ⟨?_, hlow, hhigh, hmsb⟩
  rw [Nat.shiftLeft_eq, Nat.mod_eq_of_lt hhigh]

/-- C1: for every input with nonzero parity-corrected value, the result
`(r, sout)` of `fix32_invsqrt` (two Newton iterations) satisfies
`|r * 2^-sout * sqrt(val1 * 2^-scale1) - 1| < 10^-4`, i.e. the relative
error of `r` at scale `sout` against `1/sqrt(val1 / 2^scale1)` (the
parity-corrected input) is under 0.01%; and in particular
`fix32_invsqrt(2^30, 30)` returns exactly `(2^30, 30)`. -/
theorem fix32_invsqrt_error (val : Nat) (scale : Int)
    (h1 : 1 ≤ (invsqrt_parity val scale).1) :
    (|((fix32_invsqrt val scale).1 : ℝ)
        * (2 : ℝ) ^ (-(fix32_invsqrt val scale).2)
        * Real.sqrt (((invsqrt_parity val scale).1 : ℝ)
            * (2 : ℝ) ^ (-(invsqrt_parity val scale).2)) - 1|
      < 1 / 10 ^ 4)
    ∧ fix32_invsqrt (2 ^ 30) 30 = (2 ^ 30, 30) := by
  constructor
  · have hfix : fix32_invsqrt val scale
        = invsqrt_core (invsqrt_parity val scale).1 (invsqrt_parity val scale).2 :=
      rfl
    have hv32 : (invsqrt_parity val scale).1 < 2 ^ 32 :=
      invsqrt_parity_fst_lt val scale
    have hseven : (2 : ℤ) ∣ (invsqrt_parity val scale).2 :=
      invsqrt_parity_snd_even val scale
    obtain ⟨hmod, hlo, hhi, hm30⟩ :=
      mantissa_eq (invsqrt_parity val scale).1 h1 hv32
    have hcore1 : (fix32_invsqrt val scale).1
        = invsqrt_mant ((invsqrt_parity val scale).1
            * 2 ^ (30 - msbEven (invsqrt_parity val scale).1)) := by
      rw [hfix]
      show invsqrt_mant (((invsqrt_parity val scale).1
          <<< (30 - msbEven (invsqrt_parity val scale).1)) % 2 ^ 32) = _
      rw [hmod]
    have hcore2 : (fix32_invsqrt val scale).2
        = 30 + sar ((msbEven (invsqrt_parity val scale).1 : Int)
            - (invsqrt_parity val scale).2) 1 := by
      rw [hfix]
      rfl
    have h2n : 2 * sar ((msbEven (invsqrt_parity val scale).1 : Int)
          - (invsqrt_parity val scale).2) 1
        = (msbEven (invsqrt_parity val scale).1 : Int)
          - (invsqrt_parity val scale).2 := by
      rw [sar_eq_ediv]
      have hdvd : (2 : ℤ) ∣ ((msbEven (invsqrt_parity val scale).1 : Int)
          - (invsqrt_parity val scale).2) := by
        apply dvd_sub
        · have := msbEven_log2_char (invsqrt_parity val scale).1 h1 hv32
          rw [this]
          push_cast
          exact Dvd.intro _ rfl
        · exact hseven
      rw [show ((2 : ℤ) ^ 1) = 2 from rfl]
      rw [mul_comm]
      exact Int.ediv_mul_cancel hdvd
    obtain ⟨hl, hh⟩ := invsqrt_mant_error ((invsqrt_parity val scale).1
        * 2 ^ (30 - msbEven (invsqrt_parity val scale).1)) hlo hhi
    rw [hcore1, hcore2]
    exact real_error_assembly _ _ _ _ _ _ hm30 rfl h2n hl hh
  · decide

/-- Witness for `fix32_invsqrt_error` at `val = 2^30`, `scale = 30`
(the spec's own example: the value `1.0`). -/
theorem fix32_invsqrt_error_witness :
    1 ≤ (invsqrt_parity (2 ^ 30) 30).1
    ∧ ((|((fix32_invsqrt (2 ^ 30) 30).1 : ℝ)
        * (2 : ℝ) ^ (-(fix32_invsqrt (2 ^ 30) 30).2)
        * Real.sqrt (((invsqrt_parity (2 ^ 30) 30).1 : ℝ)
            * (2 : ℝ) ^ (-(invsqrt_parity (2 ^ 30) 30).2)) - 1|
      < 1 / 10 ^ 4)
    ∧ fix32_invsqrt (2 ^ 30) 30 = (2 ^ 30, 30)) :=
  ⟨by decide, fix32_invsqrt_error (2 ^ 30) 30 (by decide)⟩
